import Mathlib

/-!
Verification of the Elastic-Resource-Allocation repository: a shallow
embedding of the task/server data model, the matrix greedy allocator
(`greedy_matrix/matrix_greedy.py`), the optimal CP wrapper
(`src/optimal/optimal.py`), and the VCG auction layer
(`src/auctions/vcg_auction.py`, `src/auctions/fixed_vcg_auction.py`),
together with proofs of the specification's claims about them.
-/

namespace Elastic

/-- Python exceptions that the embedded code can raise. -/
inductive PyError where
  | valueError
  | assertionError
deriving DecidableEq, Repr

/-- A task's static demand fields (spec §3; `core.task.Task` / `core.job.Job`). -/
structure Task where
  name : Nat
  required_storage : Nat
  required_computation : Nat
  required_results_data : Nat
  deadline : Nat
  value : Nat
deriving DecidableEq, Repr

/-- A server's static capacity fields (spec §3; `core.server.Server`). -/
structure Server where
  name : Nat
  storage_capacity : Nat
  computation_capacity : Nat
  bandwidth_capacity : Nat
deriving DecidableEq, Repr

/-- A fixed-speed task (spec §4.3; `core.fixed_task.FixedTask`): per-task
resource rates are static, there is no speed choice.  Only the fields read by
the fixed-speed solvers (`fixed_optimal.py` lines 43-51) are modelled. -/
structure FixedTask where
  name : Nat
  required_storage : Nat
  loading_speed : Nat
  compute_speed : Nat
  sending_speed : Nat
  value : Nat
deriving DecidableEq, Repr

/-- A task's mutable allocation fields (spec §3): loading, compute and sending
speeds, the running server, and an optional price.  Speeds are integers because
`fixed_vcg_auction.py` line 75 commits the sentinel speeds `(-1, -1, -1)`. -/
structure Alloc where
  loading_speed : Int
  compute_speed : Int
  sending_speed : Int
  running_server : Server
  price : Option Int
deriving DecidableEq, Repr

/-- The mutable allocation state of a run: which tasks are allocated, with
which allocation fields.  A task absent from the list is unallocated. -/
abbrev AllocState (α : Type) := List (α × Alloc)

/-- Look up a task's allocation fields (first entry wins). -/
def findAlloc {α : Type} [DecidableEq α] : AllocState α → α → Option Alloc
  | [], _ => none
  | (u, a) :: st, t => if u = t then some a else findAlloc st t

/-- Modelled from the spec: `core.core.reset_model` (not under src/) clears
every task's allocation fields, so the resulting state allocates nothing. -/
def reset_model {α : Type} (_tasks : List α) (_servers : List Server) : AllocState α := []

/-- Modelled from the spec: `core.core.allocate` (not under src/) sets the
task's allocation fields to the given speeds, server and price. -/
def allocate {α : Type} (st : AllocState α) (t : α) (s w r : Int) (server : Server)
    (price : Option Int) : AllocState α :=
  (t, ⟨s, w, r, server, price⟩) :: st

/-- Modelled from the spec: `core.core.list_copy_remove` (not under src/)
returns a fresh copy of the list with the first occurrence of the element
removed; the original list is untouched. -/
def list_copy_remove {α : Type} [DecidableEq α] (l : List α) (x : α) : List α := l.erase x

/-- The storage currently used on a server: the sum of `required_storage` over
the tasks allocated to it (spec §3 derived fields of `core.server.Server`). -/
def usedStorage (st : AllocState Task) (sv : Server) : Nat :=
  ((st.filter (fun p => p.2.running_server = sv)).map (fun p => p.1.required_storage)).sum

/-- The computation currently used on a server: the sum of the allocated
tasks' compute speeds. -/
def usedComputation (st : AllocState Task) (sv : Server) : Int :=
  ((st.filter (fun p => p.2.running_server = sv)).map (fun p => p.2.compute_speed)).sum

/-- The bandwidth currently used on a server: the sum of the allocated tasks'
loading plus sending speeds (both draw from the same bandwidth pool). -/
def usedBandwidth (st : AllocState Task) (sv : Server) : Int :=
  ((st.filter (fun p => p.2.running_server = sv)).map
    (fun p => p.2.loading_speed + p.2.sending_speed)).sum

/-- Modelled from the spec: `Server.available_storage` (spec §3 derived
field), the storage capacity minus the storage used by allocated tasks. -/
def Server.available_storage (sv : Server) (st : AllocState Task) : Int :=
  (sv.storage_capacity : Int) - usedStorage st sv

/-- Modelled from the spec: `Server.available_computation` (spec §3 derived
field). -/
def Server.available_computation (sv : Server) (st : AllocState Task) : Int :=
  (sv.computation_capacity : Int) - usedComputation st sv

/-- Modelled from the spec: `Server.available_bandwidth` (spec §3 derived
field). -/
def Server.available_bandwidth (sv : Server) (st : AllocState Task) : Int :=
  (sv.bandwidth_capacity : Int) - usedBandwidth st sv

/-- `range(1, n + 1)` over the integers: the naturals `1, ..., n`, empty when
`n ≤ 0`, exactly as Python's `range` behaves on a non-positive bound. -/
def range1 (n : Int) : List Nat := (List.range n.toNat).map (· + 1)

/-- The integer-safe deadline inequality of `matrix_greedy.py` lines 18-19:
`required_storage·w·r + s·required_computation·r + s·w·required_results_data
≤ deadline·s·w·r`. -/
def deadlineOk (job : Task) (s w r : Nat) : Prop :=
  job.required_storage * w * r + s * job.required_computation * r +
    s * w * job.required_results_data ≤ job.deadline * s * w * r

instance (job : Task) (s w r : Nat) : Decidable (deadlineOk job s w r) := by
  unfold deadlineOk; infer_instance

/-- The admissible speed triples enumerated by `allocate_resources`
(`matrix_greedy.py` lines 14-19): `1 ≤ s ≤ available_bandwidth`,
`1 ≤ w ≤ available_computation`, `1 ≤ r ≤ available_bandwidth − s`, filtered
by the integer-safe deadline inequality, in the source's generator order. -/
def candidateTriples (job : Task) (server : Server) (st : AllocState Task) :
    List (Nat × Nat × Nat) :=
  (range1 (server.available_bandwidth st)).flatMap (fun s =>
    (range1 (server.available_computation st)).flatMap (fun w =>
      ((range1 (server.available_bandwidth st - s)).filter
        (fun r => decide (deadlineOk job s w r))).map (fun r => (s, w, r))))

/-- A caller-supplied allocation-value objective
(`greedy_matrix/allocation_value_policy.AllocationValuePolicy.evaluate`). -/
abbrev AllocationValuePolicy := Task → Server → Nat → Nat → Nat → ℚ

/-- Python's `max(xs, key=first)` on a non-empty list: the first element with
maximal first component. -/
def maxByFst {β : Type} (x : ℚ × β) (xs : List (ℚ × β)) : ℚ × β :=
  xs.foldl (fun b y => if b.1 < y.1 then y else b) x

/-- `allocate_resources` from `greedy_matrix/matrix_greedy.py` lines 13-19:
evaluate the objective on every admissible triple and take the maximum;
Python's `max` raises `ValueError` when the generator is empty. -/
def allocate_resources (job : Task) (server : Server) (st : AllocState Task)
    (value : AllocationValuePolicy) : Except PyError (ℚ × Nat × Nat × Nat) :=
  match (candidateTriples job server st).map (fun t => (value job server t.1 t.2.1 t.2.2, t)) with
  | [] => .error .valueError
  | x :: xs => .ok (maxByFst x xs)

/-- Modelled from the spec: `Server.can_run` (`core.server`, not under src/)
is the spec §4.1 `can_host` check — the task's storage fits in the available
storage and at least one admissible triple in the available-resource cube
satisfies the deadline inequality. -/
def can_run (server : Server) (job : Task) (st : AllocState Task) : Bool :=
  decide ((job.required_storage : Int) ≤ server.available_storage st) &&
    !(candidateTriples job server st).isEmpty

/-- One row of the greedy value matrix: objective value, task, server and the
chosen speed triple (`matrix_greedy.py` lines 25-30). -/
abbrev MatrixRow := ℚ × Task × Server × Nat × Nat × Nat

/-- Build the value matrix of `matrix_greedy.py` lines 25-30: for every
unallocated job and every server that can run it, the best triple by the
policy's objective. -/
def buildValueMatrix (unalloc : List Task) (servers : List Server)
    (st : AllocState Task) (policy : AllocationValuePolicy) : List MatrixRow :=
  unalloc.flatMap (fun job => servers.flatMap (fun server =>
    if can_run server job st then
      match allocate_resources job server st policy with
      | .ok (v, s, w, r) => [(v, job, server, s, w, r)]
      | .error _ => []
    else []))

/-- The loop of `matrix_greedy` (`matrix_greedy.py` lines 24-38), with fuel
bounding the number of iterations by the number of unallocated jobs. -/
def matrixGreedyLoop (servers : List Server) (policy : AllocationValuePolicy) :
    Nat → List Task → AllocState Task → AllocState Task
  | 0, _, st => st
  | fuel + 1, unalloc, st =>
    match buildValueMatrix unalloc servers st policy with
    | [] => st
    | row :: rows =>
      let best := maxByFst row rows
      matrixGreedyLoop servers policy fuel (unalloc.erase best.2.1)
        (allocate st best.2.1 best.2.2.2.1 best.2.2.2.2.1 best.2.2.2.2.2 best.2.2.1 none)

/-- `matrix_greedy` from `greedy_matrix/matrix_greedy.py` lines 22-40: pick
the globally best (job, server, triple) row, commit it, repeat until no job
can be placed. -/
def matrix_greedy (jobs : List Task) (servers : List Server)
    (policy : AllocationValuePolicy) (st : AllocState Task) : AllocState Task :=
  matrixGreedyLoop servers policy jobs.length jobs st

/-- The per-server capacity invariant of spec §8: storage, computation and
bandwidth sums over allocated tasks stay within the server's capacities. -/
def ServerInvariant (sv : Server) (st : AllocState Task) : Prop :=
  usedStorage st sv ≤ sv.storage_capacity ∧
  usedComputation st sv ≤ (sv.computation_capacity : Int) ∧
  usedBandwidth st sv ≤ (sv.bandwidth_capacity : Int)

instance (sv : Server) (st : AllocState Task) : Decidable (ServerInvariant sv st) := by
  unfold ServerInvariant; infer_instance

/-- What a solver call returns to the VCG layer (`core.result.Result`, reduced
to the fields `vcg_solver` reads): the social welfare and the allocation state
the solve committed. -/
structure SolverOut (α : Type) where
  social_welfare : Nat
  state : AllocState α

/-- A solver as consumed by `vcg_solver` (`vcg_auction.py` line 27): it reads
the task list and the current allocation state and either commits an
allocation or fails. -/
abbrev Solver (α : Type) := List α → AllocState α → Option (SolverOut α)

/-- The tasks accepted by a solve: those whose `running_server` is set
(`vcg_auction.py` line 42). -/
def allocatedTasks {α : Type} [DecidableEq α] (tasks : List α) (st : AllocState α) : List α :=
  tasks.filter (fun t => (findAlloc st t).isSome)

/-- The saved optimal allocation (`vcg_auction.py` lines 43-46): each accepted
task with its loading, compute and sending speeds and its running server. -/
def savedAllocation {α : Type} [DecidableEq α] (tasks : List α) (st : AllocState α) :
    List (α × Alloc) :=
  (allocatedTasks tasks st).filterMap (fun t => (findAlloc st t).map (fun a => (t, a)))

/-- One removal re-solve (`vcg_auction.py` lines 52-58): reset the model, copy
the task list with the task removed, and re-run the solver. -/
def vcgResolve {α : Type} [DecidableEq α] (tasks : List α) (servers : List Server)
    (solver : Solver α) (t : α) : Option (SolverOut α) :=
  solver (list_copy_remove tasks t) (reset_model tasks servers)

/-- The price loop of `vcg_solver` (`vcg_auction.py` lines 51-63): for each
accepted task, the removal re-solve's welfare subtracted from the full solve's
welfare; the whole computation fails if any re-solve fails. -/
def vcgPrices {α : Type} [DecidableEq α] (tasks : List α) (servers : List Server)
    (solver : Solver α) (sw : Nat) : List α → Option (List (α × Int))
  | [] => some []
  | t :: rest =>
    match vcgResolve tasks servers solver t with
    | none => none
    | some pr =>
      match vcgPrices tasks servers solver sw rest with
      | none => none
      | some ps => some ((t, (sw : Int) - (pr.social_welfare : Int)) :: ps)

/-- Look up a task's computed price (the `task_prices` dict of
`vcg_auction.py` line 31). -/
def lookupPrice {α : Type} [DecidableEq α] : List (α × Int) → α → Option Int
  | [], _ => none
  | (u, p) :: ps, t => if u = t then some p else lookupPrice ps t

/-- `vcg_solver` from `src/auctions/vcg_auction.py` lines 27-70: full solve,
save the optimal allocation, price each accepted task by a removal re-solve,
then reset and recommit the saved allocation with prices attached.  Returns
the price table and the final allocation state; `none` models the source's
`return 0` failure paths. -/
def vcg_solver {α : Type} [DecidableEq α] (tasks : List α) (servers : List Server)
    (solver : Solver α) (st0 : AllocState α) :
    Option (List (α × Int) × AllocState α) :=
  match solver tasks st0 with
  | none => none
  | some opt =>
    match vcgPrices tasks servers solver opt.social_welfare (allocatedTasks tasks opt.state) with
    | none => none
    | some prices =>
      let final := (savedAllocation tasks opt.state).foldl
        (fun st ta => allocate st ta.1 ta.2.loading_speed ta.2.compute_speed ta.2.sending_speed
          ta.2.running_server (lookupPrice prices ta.1))
        (reset_model tasks servers)
      some (prices, final)

/-- The per-task server choices available to the fixed-speed solver: some
server index below `ns`, or leave the task unallocated. -/
def serverChoices (ns : Nat) : List (Option Nat) := none :: (List.range ns).map some

/-- All assignments of `n` tasks to server choices. -/
def allAssignments (ns : Nat) : Nat → List (List (Option Nat))
  | 0 => [[]]
  | n + 1 => (serverChoices ns).flatMap (fun o => (allAssignments ns n).map (fun σ => o :: σ))

/-- The load a task/choice list places on server index `j`, measured by `f`. -/
def loadOn (f : FixedTask → Nat) (j : Nat) : List (FixedTask × Option Nat) → Nat
  | [] => 0
  | (t, o) :: l => (if o = some j then f t else 0) + loadOn f j l

/-- The social welfare of a task/choice list: the summed value of the tasks
assigned to some server. -/
def assignedValue : List (FixedTask × Option Nat) → Nat
  | [] => 0
  | (t, o) :: l => (if o.isSome then t.value else 0) + assignedValue l

/-- The choices of an assignment only name existing server indexes. -/
def ValidChoices (ns : Nat) (σ : List (Option Nat)) : Prop :=
  ∀ o ∈ σ, ∀ j, o = some j → j < ns

instance (ns : Nat) (o : Option Nat) : Decidable (∀ j, o = some j → j < ns) :=
  match o with
  | none => isTrue (by simp)
  | some k => decidable_of_iff (k < ns) (by simp)

instance (ns : Nat) (σ : List (Option Nat)) : Decidable (ValidChoices ns σ) := by
  unfold ValidChoices; infer_instance

/-- A capacity-feasible assignment (spec §4.3 / the constraints of
`fixed_optimal.py` lines 38-48): at most one server per task and, for every
server, storage, computation and bandwidth loads within capacity. -/
def FeasibleAssignment (tasks : List FixedTask) (servers : List Server)
    (σ : List (Option Nat)) : Prop :=
  σ.length = tasks.length ∧ ValidChoices servers.length σ ∧
  ∀ j, (h : j < servers.length) →
    loadOn (fun t => t.required_storage) j (tasks.zip σ) ≤ (servers.get ⟨j, h⟩).storage_capacity ∧
    loadOn (fun t => t.compute_speed) j (tasks.zip σ) ≤ (servers.get ⟨j, h⟩).computation_capacity ∧
    loadOn (fun t => t.loading_speed + t.sending_speed) j (tasks.zip σ) ≤
      (servers.get ⟨j, h⟩).bandwidth_capacity

instance (tasks : List FixedTask) (servers : List Server) (σ : List (Option Nat)) :
    Decidable (FeasibleAssignment tasks servers σ) := by
  unfold FeasibleAssignment; infer_instance

/-- All capacity-feasible assignments of the instance. -/
def feasibleAssignments (tasks : List FixedTask) (servers : List Server) :
    List (List (Option Nat)) :=
  (allAssignments servers.length tasks.length).filter
    (fun σ => decide (FeasibleAssignment tasks servers σ))

/-- The optimal social welfare of the fixed-speed instance: the maximum
assigned value over all capacity-feasible assignments. -/
def optimalWelfare (tasks : List FixedTask) (servers : List Server) : Nat :=
  ((feasibleAssignments tasks servers).map (fun σ => assignedValue (tasks.zip σ))).foldl max 0

/-- Pick a welfare-maximizing assignment (first maximal wins). -/
def pickBest (tasks : List FixedTask) : List (Option Nat) → List (List (Option Nat)) →
    List (Option Nat)
  | b, [] => b
  | b, σ :: rest =>
    pickBest tasks (if assignedValue (tasks.zip b) < assignedValue (tasks.zip σ) then σ else b) rest

/-- A welfare-maximizing capacity-feasible assignment of the instance. -/
def bestAssignment (tasks : List FixedTask) (servers : List Server) : List (Option Nat) :=
  pickBest tasks (List.replicate tasks.length none) (feasibleAssignments tasks servers)

/-- The allocation state an assignment commits: each assigned task runs on its
chosen server at its fixed speeds. -/
def stateOfAssignment (tasks : List FixedTask) (servers : List Server)
    (σ : List (Option Nat)) : AllocState FixedTask :=
  (tasks.zip σ).filterMap (fun p =>
    p.2.bind (fun j => (servers[j]?).map (fun sv =>
      (p.1, ⟨(p.1.loading_speed : Int), (p.1.compute_speed : Int), (p.1.sending_speed : Int),
        sv, none⟩))))

/-- Modelled from the spec: the §4.3 exact fixed-speed solver
(`branch_bound.branch_bound_algorithm` and the external CP solve of
`fixed_optimal.py`, neither under src/): an exhaustive, deterministic search
over all capacity-feasible subset-to-server assignments that commits a
value-maximizing one and reports its social welfare. -/
def fixedSolver (servers : List Server) : Solver FixedTask := fun ts _ =>
  some ⟨optimalWelfare ts servers, stateOfAssignment ts servers (bestAssignment ts servers)⟩

/-- `fixed_vcg_auction` from `src/auctions/fixed_vcg_auction.py` lines 23-77:
the VCG cycle over the exact fixed-speed solver; the restore loop (lines
72-75) recommits each accepted task on its saved server with the sentinel
speed triple `(-1, -1, -1)` and its computed price. -/
def fixed_vcg_auction (tasks : List FixedTask) (servers : List Server)
    (st0 : AllocState FixedTask) :
    Option (List (FixedTask × Int) × AllocState FixedTask) :=
  match fixedSolver servers tasks st0 with
  | none => none
  | some opt =>
    match vcgPrices tasks servers (fixedSolver servers) opt.social_welfare
        (allocatedTasks tasks opt.state) with
    | none => none
    | some prices =>
      let final := (savedAllocation tasks opt.state).foldl
        (fun st ta => allocate st ta.1 (-1) (-1) (-1) ta.2.running_server (lookupPrice prices ta.1))
        (reset_model tasks servers)
      some (prices, final)

/-- The docplex solve statuses the wrapper inspects (`optimal.py` lines 7 and
65-66), extended with the non-success outcomes. -/
inductive SolveStatus where
  | optimal
  | feasible
  | infeasible
  | unknown
deriving DecidableEq, Repr

/-- The outcome of the external CP solve (the spec §6 oracle behind
`model.solve` in `optimal.py` line 62): a solve status and, per task, the
solved speed values and chosen server index when its allocation variable is
set. -/
structure CpoSolution where
  solve_status : SolveStatus
  pick : Task → Option ((Nat × Nat × Nat) × Nat)

/-- The fields of the `Result` built by `optimal_algorithm` (`optimal.py`
lines 86-87) that the claims inspect: the solve status it records and the
allocation it committed. -/
structure OptResult where
  solve_status : SolveStatus
  state : AllocState Task

/-- One step of the allocation-commit loop of `optimal_algorithm`
(`optimal.py` lines 74-80): a task whose allocation variable is set is
allocated with its solved speeds on its chosen server. -/
def optStep (servers : List Server) (sol : CpoSolution) (st : AllocState Task)
    (t : Task) : AllocState Task :=
  match sol.pick t with
  | some ((s, w, r), j) =>
    match servers[j]? with
    | some sv => allocate st t s w r sv none
    | none => st
  | none => st

/-- The allocation-commit loop of `optimal_algorithm` (`optimal.py` lines
73-80) over all tasks. -/
def optAllocState (tasks : List Task) (servers : List Server) (sol : CpoSolution) :
    AllocState Task :=
  tasks.foldl (optStep servers sol) []

/-- `optimal_algorithm` from `src/optimal/optimal.py` lines 19-87: assert the
time limit, compute the speed-variable bounds (`max(...)` over the server
capacities raises `ValueError` on an empty server list, line 31), solve, fail
with `None` unless the status is feasible or optimal, otherwise commit the
solved allocation and return a `Result` carrying the solve status. -/
def optimal_algorithm (tasks : List Task) (servers : List Server) (time_limit : Int)
    (sol : CpoSolution) : Except PyError (Option OptResult) :=
  if time_limit ≤ 0 then .error .assertionError
  else
    match (servers.map Server.bandwidth_capacity).max? with
    | none => .error .valueError
    | some _maxBW =>
      if sol.solve_status ≠ SolveStatus.feasible ∧ sol.solve_status ≠ SolveStatus.optimal then
        .ok none
      else
        .ok (some ⟨sol.solve_status, optAllocState tasks servers sol⟩)

/-- The server a task is sent to by the CP solution, if any. -/
def pickedServer (servers : List Server) (sol : CpoSolution) (t : Task) : Option Server :=
  (sol.pick t).bind (fun p => servers[p.2]?)

/-- The picked values of a task respect the speed-variable bounds and the
deadline constraint declared in `optimal.py` lines 36-42 (the deadline
constraint in the spec §3 integer-safe form, equivalent to the declared
rational form on speeds ≥ 1). -/
def pickOk (t : Task) (o : Option ((Nat × Nat × Nat) × Nat)) : Prop :=
  match o with
  | none => True
  | some ((s, w, r), _) => 1 ≤ s ∧ 1 ≤ w ∧ 1 ≤ r ∧ deadlineOk t s w r

instance (t : Task) (o : Option ((Nat × Nat × Nat) × Nat)) : Decidable (pickOk t o) :=
  match o with
  | none => isTrue trivial
  | some ((s, w, r), _) =>
    decidable_of_iff (1 ≤ s ∧ 1 ≤ w ∧ 1 ≤ r ∧ deadlineOk t s w r) Iff.rfl

/-- The CP solution satisfies, for every task of the instance, the per-task
speed bounds and deadline constraint declared in `optimal.py` lines 36-42. -/
def CpoRespectsDeadlines (tasks : List Task) (sol : CpoSolution) : Prop :=
  ∀ t ∈ tasks, pickOk t (sol.pick t)

instance (tasks : List Task) (sol : CpoSolution) :
    Decidable (CpoRespectsDeadlines tasks sol) := by
  unfold CpoRespectsDeadlines; infer_instance

/-- The outcome of the external CP solve behind `fixed_optimal.py` line 54:
a solve status and, per fixed task, the chosen server index when its binary
allocation variable is set (the fixed variant has no speed variables). -/
structure FixedCpoSolution where
  solve_status : SolveStatus
  pick : FixedTask → Option Nat

/-- The fields of the `Result` built by `fixed_optimal_algorithm`
(`fixed_optimal.py` lines 76-77) that the claims inspect. -/
structure FixedOptResult where
  solve_status : SolveStatus
  state : AllocState FixedTask

/-- One step of the allocation loop of `fixed_optimal_algorithm`
(`fixed_optimal.py` lines 65-69): an allocated task is committed on its chosen
server at its own fixed speeds. -/
def fixedOptStep (servers : List Server) (sol : FixedCpoSolution)
    (st : AllocState FixedTask) (t : FixedTask) : AllocState FixedTask :=
  match sol.pick t with
  | some j =>
    match servers[j]? with
    | some sv => allocate st t t.loading_speed t.compute_speed t.sending_speed sv none
    | none => st
  | none => st

/-- The allocation loop of `fixed_optimal_algorithm` (`fixed_optimal.py`
lines 64-69) over all tasks. -/
def fixedOptAllocState (tasks : List FixedTask) (servers : List Server)
    (sol : FixedCpoSolution) : AllocState FixedTask :=
  tasks.foldl (fixedOptStep servers sol) []

/-- `fixed_optimal_algorithm` from `src/optimal/fixed_optimal.py` lines 20-77:
assert the time limit, solve, fail with `None` unless the status is feasible
or optimal, otherwise commit each allocated task at its fixed speeds and
return a `Result` carrying the solve status. -/
def fixed_optimal_algorithm (tasks : List FixedTask) (servers : List Server)
    (time_limit : Int) (sol : FixedCpoSolution) : Except PyError (Option FixedOptResult) :=
  if time_limit ≤ 0 then .error .assertionError
  else if sol.solve_status ≠ SolveStatus.feasible ∧
      sol.solve_status ≠ SolveStatus.optimal then
    .ok none
  else
    .ok (some ⟨sol.solve_status, fixedOptAllocState tasks servers sol⟩)

/-- The storage used on a server by allocated fixed tasks. -/
def fixedUsedStorage (st : AllocState FixedTask) (sv : Server) : Nat :=
  ((st.filter (fun p => p.2.running_server = sv)).map (fun p => p.1.required_storage)).sum

/-- The computation used on a server by allocated fixed tasks. -/
def fixedUsedComputation (st : AllocState FixedTask) (sv : Server) : Int :=
  ((st.filter (fun p => p.2.running_server = sv)).map (fun p => p.2.compute_speed)).sum

/-- The bandwidth used on a server by allocated fixed tasks. -/
def fixedUsedBandwidth (st : AllocState FixedTask) (sv : Server) : Int :=
  ((st.filter (fun p => p.2.running_server = sv)).map
    (fun p => p.2.loading_speed + p.2.sending_speed)).sum

/-- The per-server capacity invariant of spec §8 over a fixed-task allocation
state. -/
def FixedServerInvariant (sv : Server) (st : AllocState FixedTask) : Prop :=
  fixedUsedStorage st sv ≤ sv.storage_capacity ∧
  fixedUsedComputation st sv ≤ (sv.computation_capacity : Int) ∧
  fixedUsedBandwidth st sv ≤ (sv.bandwidth_capacity : Int)

instance (sv : Server) (st : AllocState FixedTask) :
    Decidable (FixedServerInvariant sv st) := by
  unfold FixedServerInvariant; infer_instance

/-- The server a fixed task is sent to by the CP solution, if any. -/
def fixedPickedServer (servers : List Server) (sol : FixedCpoSolution)
    (t : FixedTask) : Option Server :=
  (sol.pick t).bind (fun j => servers[j]?)

/-- The CP solution satisfies the per-server capacity constraints declared in
`fixed_optimal.py` lines 42-48: each constraint sums, over all tasks, the
fixed demand times the indicator that the task's allocation variable for this
server is set. -/
def FixedCpoRespectsCapacities (tasks : List FixedTask) (servers : List Server)
    (sol : FixedCpoSolution) : Prop :=
  ∀ sv ∈ servers,
    ((tasks.map (fun t =>
        if fixedPickedServer servers sol t = some sv then t.required_storage else 0)).sum ≤
      sv.storage_capacity) ∧
    ((tasks.map (fun t =>
        if fixedPickedServer servers sol t = some sv then (t.compute_speed : Int)
        else 0)).sum ≤ (sv.computation_capacity : Int)) ∧
    ((tasks.map (fun t =>
        if fixedPickedServer servers sol t = some sv then
          ((t.loading_speed : Int) + (t.sending_speed : Int))
        else 0)).sum ≤ (sv.bandwidth_capacity : Int))

instance (tasks : List FixedTask) (servers : List Server) (sol : FixedCpoSolution) :
    Decidable (FixedCpoRespectsCapacities tasks servers sol) := by
  unfold FixedCpoRespectsCapacities; infer_instance

/-- The CP solution satisfies the per-server capacity constraints declared in
`optimal.py` lines 50-56: each constraint sums, over all tasks, the demand
times the indicator that the task's allocation variable for this server is
set. -/
def CpoRespectsCapacities (tasks : List Task) (servers : List Server)
    (sol : CpoSolution) : Prop :=
  ∀ sv ∈ servers,
    ((tasks.map (fun t =>
        if pickedServer servers sol t = some sv then t.required_storage else 0)).sum ≤
      sv.storage_capacity) ∧
    ((tasks.map (fun t =>
        if pickedServer servers sol t = some sv then
          ((sol.pick t).map (fun p => (p.1.2.1 : Int))).getD 0
        else 0)).sum ≤ (sv.computation_capacity : Int)) ∧
    ((tasks.map (fun t =>
        if pickedServer servers sol t = some sv then
          ((sol.pick t).map (fun p => ((p.1.1 : Int) + (p.1.2.2 : Int)))).getD 0
        else 0)).sum ≤ (sv.bandwidth_capacity : Int))

/-- The bounds of the speed-triple search cube (`matrix_greedy.py` lines
15-17): loading and sending speeds share the server's available bandwidth
pool, the compute speed is bounded by the available computation. -/
def TripleInBounds (server : Server) (st : AllocState Task) (s w r : Nat) : Prop :=
  1 ≤ s ∧ (s : Int) ≤ server.available_bandwidth st ∧
  1 ≤ w ∧ (w : Int) ≤ server.available_computation st ∧
  1 ≤ r ∧ (r : Int) ≤ server.available_bandwidth st - s

instance (server : Server) (st : AllocState Task) (s w r : Nat) :
    Decidable (TripleInBounds server st s w r) := by
  unfold TripleInBounds; infer_instance

/-- A well-formed committed allocation for a task (spec §8): all three speeds
at least one and the rational deadline inequality satisfied. -/
def GoodAlloc (t : Task) (a : Alloc) : Prop :=
  1 ≤ a.loading_speed ∧ 1 ≤ a.compute_speed ∧ 1 ≤ a.sending_speed ∧
  (t.required_storage : ℚ) / (a.loading_speed : ℚ) +
    (t.required_computation : ℚ) / (a.compute_speed : ℚ) +
    (t.required_results_data : ℚ) / (a.sending_speed : ℚ) ≤ (t.deadline : ℚ)

/-- A concrete task used to evaluate the theorems on explicit inputs. -/
def wTask : Task := ⟨0, 4, 4, 2, 3, 7⟩

/-- A concrete task that no server below storage 100 can host in time. -/
def wTaskBad : Task := ⟨2, 100, 1, 1, 1, 5⟩

/-- A concrete server used to evaluate the theorems on explicit inputs. -/
def wServer : Server := ⟨1, 10, 10, 10⟩

/-- A concrete allocation-value objective: total assigned speed. -/
def wPolicy : AllocationValuePolicy := fun _ _ s w r => mkRat (Int.ofNat (s + w + r)) 1

/-- A small concrete task, light enough for kernel evaluation. -/
def wTaskSmall : Task := ⟨3, 2, 2, 1, 3, 7⟩

/-- A small concrete server, light enough for kernel evaluation. -/
def wServerSmall : Server := ⟨2, 5, 3, 4⟩

/-- A concrete fixed-speed task used to evaluate the theorems. -/
def wFixedTask : FixedTask := ⟨0, 1, 1, 1, 1, 10⟩

/-- A second concrete fixed-speed task, competing for the same storage. -/
def wFixedTask2 : FixedTask := ⟨1, 9, 1, 1, 1, 4⟩

/-- A concrete server for the fixed-speed instances. -/
def wFixedServer : Server := ⟨0, 9, 10, 10⟩

/-- A concrete CP-solve outcome allocating `wTask` to the first server with
speeds `(2, 10, 8)`. -/
def wSolution : CpoSolution :=
  ⟨SolveStatus.optimal, fun t => if t = wTask then some ((2, 10, 8), 0) else none⟩

/-- The result `optimal_algorithm` returns on the concrete witness inputs. -/
def wOptResult : OptResult :=
  ⟨SolveStatus.optimal, optAllocState [wTask] [wServer] wSolution⟩

/-- A concrete CP-solve outcome on the small witness instance. -/
def wSolutionSmall : CpoSolution :=
  ⟨SolveStatus.optimal, fun t => if t = wTaskSmall then some ((2, 2, 2), 0) else none⟩

/-- The result `optimal_algorithm` returns on the small witness instance. -/
def wOptResultSmall : OptResult :=
  ⟨SolveStatus.optimal, optAllocState [wTaskSmall] [wServerSmall] wSolutionSmall⟩

/-- The allocation the matrix greedy allocator commits for `wTaskSmall` on
`wServerSmall` under `wPolicy`. -/
def wAllocSmall : Alloc := ⟨1, 3, 3, wServerSmall, none⟩

/-- The allocation `optimal_algorithm` commits for `wTaskSmall` under
`wSolutionSmall`. -/
def wAllocOpt : Alloc := ⟨2, 2, 2, wServerSmall, none⟩

/-- The allocation the VCG restore phase leaves for `wTaskSmall` over
`wTaskSolver`: the solver's speeds with the computed price attached. -/
def wAllocRestored : Alloc := ⟨1, 3, 3, wServerSmall, some 0⟩

instance (tasks : List Task) (servers : List Server) (sol : CpoSolution) :
    Decidable (CpoRespectsCapacities tasks servers sol) := by
  unfold CpoRespectsCapacities; infer_instance

/-- A concrete CP-solve outcome whose status is the degraded `feasible`. -/
def wSolutionFeas : CpoSolution :=
  ⟨SolveStatus.feasible, fun t => if t = wTaskSmall then some ((2, 2, 2), 0) else none⟩

/-- The output `vcg_solver` produces on the concrete two-task fixed-speed
instance: the first task is accepted at price `10 - 4 = 6` and restored with
its fixed speeds and that price. -/
def wVcgOut : List (FixedTask × Int) × AllocState FixedTask :=
  ([(wFixedTask, 6)], [(wFixedTask, ⟨1, 1, 1, wFixedServer, some 6⟩)])

/-- The output `fixed_vcg_auction` produces on the concrete two-task
fixed-speed instance: same price table as `wVcgOut`, but the restore commits
the sentinel speed triple. -/
def wFixedVcgOut : List (FixedTask × Int) × AllocState FixedTask :=
  ([(wFixedTask, 6)], [(wFixedTask, ⟨-1, -1, -1, wFixedServer, some 6⟩)])

/-- A concrete CP-solve outcome for the fixed-optimal wrapper, allocating the
concrete fixed task to the first server. -/
def wFixedSolution : FixedCpoSolution :=
  ⟨SolveStatus.optimal, fun t => if t = wFixedTask then some 0 else none⟩

/-- The result `fixed_optimal_algorithm` returns on the concrete fixed
instance. -/
def wFixedOptResult : FixedOptResult :=
  ⟨SolveStatus.optimal, fixedOptAllocState [wFixedTask] [wFixedServer] wFixedSolution⟩

/-- A concrete flexible-task solver committing the well-formed allocation
`wAllocSmall` for `wTaskSmall`, used to exercise the VCG restore phase. -/
def wTaskSolver : Solver Task := fun _ _ => some ⟨7, [(wTaskSmall, wAllocSmall)]⟩

/-- The output `vcg_solver` produces over `wTaskSolver` on the one-task
instance: the task is priced `7 - 7 = 0` and restored with its speeds. -/
def wVcgOutT : List (Task × Int) × AllocState Task :=
  ([(wTaskSmall, 0)], [(wTaskSmall, ⟨1, 3, 3, wServerSmall, some 0⟩)])

/-- A solver that always fails, exercising the zero-substitution path of
`vcg_solver`. -/
def wNoneSolver : Solver FixedTask := fun _ _ => none

/-!  ## Lemmas about the speed-triple search  -/

theorem mem_range1 {a : Nat} {n : Int} : a ∈ range1 n ↔ 1 ≤ a ∧ (a : Int) ≤ n := by
  simp only [range1, List.mem_map, List.mem_range]
  constructor
  · rintro ⟨b, hb, rfl⟩
    omega
  · rintro ⟨h1, h2⟩
    exact ⟨a - 1, by omega, by omega⟩

theorem mem_candidateTriples {job : Task} {server : Server} {st : AllocState Task}
    {s w r : Nat} :
    (s, w, r) ∈ candidateTriples job server st ↔
      TripleInBounds server st s w r ∧ deadlineOk job s w r := by
  simp only [candidateTriples, List.mem_flatMap, List.mem_map, List.mem_filter,
    decide_eq_true_eq, TripleInBounds, mem_range1]
  constructor
  · rintro ⟨s', hs', w', hw', r', ⟨hr', hd⟩, heq⟩
    obtain ⟨rfl, rfl, rfl⟩ : s' = s ∧ w' = w ∧ r' = r := by
      simpa [Prod.ext_iff] using heq
    exact ⟨⟨hs'.1, hs'.2, hw'.1, hw'.2, hr'.1, hr'.2⟩, hd⟩
  · rintro ⟨⟨h1, h2, h3, h4, h5, h6⟩, hd⟩
    exact ⟨s, ⟨h1, h2⟩, w, ⟨h3, h4⟩, r, ⟨⟨h5, h6⟩, hd⟩, rfl⟩

theorem maxByFst_cons {β : Type} (x z : ℚ × β) (zs : List (ℚ × β)) :
    maxByFst x (z :: zs) = maxByFst (if x.1 < z.1 then z else x) zs := rfl

theorem maxByFst_mem {β : Type} (x : ℚ × β) (xs : List (ℚ × β)) :
    maxByFst x xs ∈ x :: xs := by
  induction xs generalizing x with
  | nil => simp [maxByFst]
  | cons z zs ih =>
    rw [maxByFst_cons]
    by_cases hxz : x.1 < z.1
    · rw [if_pos hxz]
      rcases List.mem_cons.1 (ih z) with h | h
      · simp [h]
      · simp [h]
    · rw [if_neg hxz]
      rcases List.mem_cons.1 (ih x) with h | h
      · simp [h]
      · simp [h]

theorem init_le_maxByFst {β : Type} (x : ℚ × β) (xs : List (ℚ × β)) :
    x.1 ≤ (maxByFst x xs).1 := by
  induction xs generalizing x with
  | nil => simp [maxByFst]
  | cons z zs ih =>
    rw [maxByFst_cons]
    refine le_trans ?_ (ih _)
    split
    · exact le_of_lt (by assumption)
    · exact le_refl _

theorem le_maxByFst {β : Type} (x : ℚ × β) (xs : List (ℚ × β)) :
    ∀ y ∈ x :: xs, y.1 ≤ (maxByFst x xs).1 := by
  induction xs generalizing x with
  | nil =>
    intro y hy
    rcases List.mem_cons.1 hy with h | h
    · subst h
      simp [maxByFst]
    · cases h
  | cons z zs ih =>
    intro y hy
    rw [maxByFst_cons]
    rcases List.mem_cons.1 hy with h | hy'
    · subst h
      refine le_trans ?_ (init_le_maxByFst _ zs)
      split
      · exact le_of_lt (by assumption)
      · exact le_refl _
    · rcases List.mem_cons.1 hy' with h | hy''
      · subst h
        refine le_trans ?_ (init_le_maxByFst _ zs)
        split
        · exact le_refl _
        · exact le_of_not_lt (by assumption)
      · exact ih _ _ (List.mem_cons_of_mem _ hy'')

theorem allocate_resources_correct (job : Task) (server : Server) (st : AllocState Task)
    (value : AllocationValuePolicy) :
    match allocate_resources job server st value with
    | .error _ => ∀ s w r, TripleInBounds server st s w r → ¬ deadlineOk job s w r
    | .ok (v, s, w, r) =>
        TripleInBounds server st s w r ∧ deadlineOk job s w r ∧
        v = value job server s w r ∧
        ∀ s' w' r', TripleInBounds server st s' w' r' → deadlineOk job s' w' r' →
          value job server s' w' r' ≤ v := by
  cases hc : (candidateTriples job server st).map
      (fun t => (value job server t.1 t.2.1 t.2.2, t)) with
  | nil =>
    have hres : allocate_resources job server st value = .error .valueError := by
      unfold allocate_resources
      rw [hc]
    rw [hres]
    intro s w r hb hd
    have ht : (s, w, r) ∈ candidateTriples job server st := mem_candidateTriples.2 ⟨hb, hd⟩
    have hm : (value job server s w r, (s, w, r)) ∈
        (candidateTriples job server st).map
          (fun t => (value job server t.1 t.2.1 t.2.2, t)) :=
      List.mem_map.2 ⟨(s, w, r), ht, rfl⟩
    rw [hc] at hm
    exact absurd hm (List.not_mem_nil _)
  | cons x xs =>
    have hmem : maxByFst x xs ∈ x :: xs := maxByFst_mem x xs
    rw [← hc] at hmem
    obtain ⟨⟨s, w, r⟩, htrip, heq⟩ := List.mem_map.1 hmem
    have hcand := mem_candidateTriples.1 htrip
    have hres : allocate_resources job server st value =
        .ok (value job server s w r, (s, w, r)) := by
      unfold allocate_resources
      rw [hc]
      dsimp only
      rw [← heq]
    rw [hres]
    refine ⟨hcand.1, hcand.2, rfl, ?_⟩
    intro s' w' r' hb' hd'
    have htrip' : (s', w', r') ∈ candidateTriples job server st :=
      mem_candidateTriples.2 ⟨hb', hd'⟩
    have hmem' : (value job server s' w' r', (s', w', r')) ∈ x :: xs := by
      rw [← hc]
      exact List.mem_map.2 ⟨(s', w', r'), htrip', rfl⟩
    have hle := le_maxByFst x xs _ hmem'
    rw [← heq] at hle
    exact hle

theorem allocate_resources_error_iff (job : Task) (server : Server) (st : AllocState Task)
    (value : AllocationValuePolicy) :
    allocate_resources job server st value = .error .valueError ↔
      candidateTriples job server st = [] := by
  unfold allocate_resources
  cases hc : (candidateTriples job server st).map
      (fun t => (value job server t.1 t.2.1 t.2.2, t)) with
  | nil =>
    have hnil : candidateTriples job server st = [] := by
      rcases hcand : candidateTriples job server st with _ | ⟨y, ys⟩
      · rfl
      · rw [hcand] at hc
        exact absurd hc (by simp)
    simp [hnil]
  | cons x xs =>
    constructor
    · intro h
      cases h
    · intro h
      rw [h] at hc
      exact absurd hc (by simp)

/-- C4: the speed-triple search of `allocate_resources` enumerates exactly
the integer triples with `1 ≤ s ≤ available_bandwidth`,
`1 ≤ w ≤ available_computation` and `1 ≤ r ≤ available_bandwidth − s`, admits
a triple iff the integer-safe deadline inequality holds, and (when any
admissible triple exists) returns an admissible triple maximizing the
caller-supplied objective. -/
theorem C4_claim : ∀ (job : Task) (server : Server) (st : AllocState Task)
    (value : AllocationValuePolicy),
    (∀ s w r, (s, w, r) ∈ candidateTriples job server st ↔
      TripleInBounds server st s w r ∧ deadlineOk job s w r) ∧
    match allocate_resources job server st value with
    | .error _ => ∀ s w r, TripleInBounds server st s w r → ¬ deadlineOk job s w r
    | .ok (v, s, w, r) =>
        TripleInBounds server st s w r ∧ deadlineOk job s w r ∧
        v = value job server s w r ∧
        ∀ s' w' r', TripleInBounds server st s' w' r' → deadlineOk job s' w' r' →
          value job server s' w' r' ≤ v :=
  fun job server st value =>
    ⟨fun _ _ _ => mem_candidateTriples, allocate_resources_correct job server st value⟩

/-- Witness for C4: the theorem evaluated at a concrete task, server, empty
state and concrete objective. -/
theorem C4_claim_witness :
    (∀ s w r, (s, w, r) ∈ candidateTriples wTask wServer [] ↔
      TripleInBounds wServer [] s w r ∧ deadlineOk wTask s w r) ∧
    match allocate_resources wTask wServer [] wPolicy with
    | .error _ => ∀ s w r, TripleInBounds wServer [] s w r → ¬ deadlineOk wTask s w r
    | .ok (v, s, w, r) =>
        TripleInBounds wServer [] s w r ∧ deadlineOk wTask s w r ∧
        v = wPolicy wTask wServer s w r ∧
        ∀ s' w' r', TripleInBounds wServer [] s' w' r' → deadlineOk wTask s' w' r' →
          wPolicy wTask wServer s' w' r' ≤ v :=
  C4_claim wTask wServer [] wPolicy

/-- C8 (counterexample): on a task no triple can serve in time,
`allocate_resources` raises `ValueError` (Python's `max` over an empty
sequence) instead of returning `none`. -/
theorem C8_claim_counterexample :
    allocate_resources wTaskBad wServer [] wPolicy = .error .valueError := by
  rfl

/-- C8 (amended): `allocate_resources` is a pure query over the admissible
cube, but when no admissible triple within the server's available resources
satisfies the deadline inequality it raises `ValueError` (Python `max` over an
empty sequence) rather than returning `none`. -/
theorem C8_claim_amended : ∀ (job : Task) (server : Server) (st : AllocState Task)
    (value : AllocationValuePolicy),
    allocate_resources job server st value = .error .valueError ↔
      ∀ s w r, TripleInBounds server st s w r → ¬ deadlineOk job s w r := by
  intro job server st value
  rw [allocate_resources_error_iff]
  constructor
  · intro h s w r hb hd
    have : (s, w, r) ∈ candidateTriples job server st := mem_candidateTriples.2 ⟨hb, hd⟩
    rw [h] at this
    exact absurd this (List.not_mem_nil _)
  · intro h
    refine List.eq_nil_iff_forall_not_mem.2 ?_
    rintro ⟨s, w, r⟩ hp
    have := mem_candidateTriples.1 hp
    exact h s w r this.1 this.2

/-- Witness for C8 (amended): the characterisation evaluated at the concrete
unplaceable task. -/
theorem C8_claim_amended_witness :
    allocate_resources wTaskBad wServer [] wPolicy = .error .valueError ↔
      ∀ s w r, TripleInBounds wServer [] s w r → ¬ deadlineOk wTaskBad s w r :=
  C8_claim_amended wTaskBad wServer [] wPolicy

/-!  ## Lemmas about allocation state updates  -/

theorem findAlloc_allocate {α : Type} [DecidableEq α] (st : AllocState α) (t : α)
    (s w r : Int) (sv : Server) (p : Option Int) (u : α) :
    findAlloc (allocate st t s w r sv p) u =
      if t = u then some ⟨s, w, r, sv, p⟩ else findAlloc st u := rfl

theorem usedStorage_allocate (st : AllocState Task) (t : Task) (s w r : Int)
    (sv sv' : Server) (p : Option Int) :
    usedStorage (allocate st t s w r sv p) sv' =
      (if sv = sv' then t.required_storage else 0) + usedStorage st sv' := by
  simp only [allocate, usedStorage, List.filter_cons]
  by_cases h : sv = sv'
  · simp [h]
  · simp [h]

theorem usedComputation_allocate (st : AllocState Task) (t : Task) (s w r : Int)
    (sv sv' : Server) (p : Option Int) :
    usedComputation (allocate st t s w r sv p) sv' =
      (if sv = sv' then w else 0) + usedComputation st sv' := by
  simp only [allocate, usedComputation, List.filter_cons]
  by_cases h : sv = sv'
  · simp [h]
  · simp [h]

theorem usedBandwidth_allocate (st : AllocState Task) (t : Task) (s w r : Int)
    (sv sv' : Server) (p : Option Int) :
    usedBandwidth (allocate st t s w r sv p) sv' =
      (if sv = sv' then s + r else 0) + usedBandwidth st sv' := by
  simp only [allocate, usedBandwidth, List.filter_cons]
  by_cases h : sv = sv'
  · simp [h]
  · simp [h]

/-!  ## Lemmas about the matrix greedy loop  -/

theorem mem_buildValueMatrix {unalloc : List Task} {servers : List Server}
    {st : AllocState Task} {policy : AllocationValuePolicy} {v : ℚ}
    {job : Task} {server : Server} {s w r : Nat}
    (h : (v, job, server, s, w, r) ∈ buildValueMatrix unalloc servers st policy) :
    job ∈ unalloc ∧ server ∈ servers ∧ can_run server job st = true ∧
      allocate_resources job server st policy = .ok (v, s, w, r) := by
  simp only [buildValueMatrix, List.mem_flatMap] at h
  obtain ⟨job', hjob', server', hserver', hrow⟩ := h
  by_cases hcr : can_run server' job' st
  · rw [if_pos hcr] at hrow
    cases hres : allocate_resources job' server' st policy with
    | error e =>
      rw [hres] at hrow
      exact absurd hrow (List.not_mem_nil _)
    | ok q =>
      obtain ⟨v', s', w', r'⟩ := q
      rw [hres] at hrow
      simp only [List.mem_singleton, Prod.mk.injEq] at hrow
      obtain ⟨rfl, rfl, rfl, rfl, rfl, rfl⟩ := hrow
      exact ⟨hjob', hserver', hcr, hres⟩
  · rw [if_neg hcr] at hrow
    exact absurd hrow (List.not_mem_nil _)

theorem matrixGreedyLoop_preserves (servers : List Server) (policy : AllocationValuePolicy)
    (P : AllocState Task → Prop)
    (hstep : ∀ st v job server s w r, server ∈ servers → can_run server job st = true →
      allocate_resources job server st policy = .ok (v, s, w, r) →
      P st → P (allocate st job s w r server none)) :
    ∀ fuel unalloc st, P st → P (matrixGreedyLoop servers policy fuel unalloc st) := by
  intro fuel
  induction fuel with
  | zero =>
    intro unalloc st hP
    exact hP
  | succ n ih =>
    intro unalloc st hP
    simp only [matrixGreedyLoop]
    cases hm : buildValueMatrix unalloc servers st policy with
    | nil => exact hP
    | cons row rows =>
      dsimp only
      have hmem : maxByFst row rows ∈ buildValueMatrix unalloc servers st policy := by
        rw [hm]
        exact maxByFst_mem row rows
      rcases hbest : maxByFst row rows with ⟨v, job, server, s, w, r⟩
      rw [hbest] at hmem
      obtain ⟨-, hsv, hcr, hok⟩ := mem_buildValueMatrix hmem
      dsimp only
      exact ih _ _ (hstep st v job server s w r hsv hcr hok hP)

theorem can_run_storage {server : Server} {job : Task} {st : AllocState Task}
    (h : can_run server job st = true) :
    (job.required_storage : Int) ≤ server.available_storage st := by
  unfold can_run at h
  rw [Bool.and_eq_true] at h
  exact of_decide_eq_true h.1

theorem inv_step (st : AllocState Task) (job : Task) (server : Server) (s w r : Nat)
    (hcr : can_run server job st = true)
    (hb : TripleInBounds server st s w r) :
    ∀ sv, ServerInvariant sv st →
      ServerInvariant sv (allocate st job (s : Int) (w : Int) (r : Int) server none) := by
  intro sv hinv
  obtain ⟨h1, h2, h3⟩ := hinv
  have hstor := can_run_storage hcr
  obtain ⟨hs1, hs2, hw1, hw2, hr1, hr2⟩ := hb
  unfold Server.available_storage at hstor
  unfold Server.available_computation at hw2
  unfold Server.available_bandwidth at hs2 hr2
  refine ⟨?_, ?_, ?_⟩
  · rw [usedStorage_allocate]
    by_cases h : server = sv
    · subst h
      rw [if_pos rfl]
      omega
    · rw [if_neg h]
      omega
  · rw [usedComputation_allocate]
    by_cases h : server = sv
    · subst h
      rw [if_pos rfl]
      omega
    · rw [if_neg h]
      omega
  · rw [usedBandwidth_allocate]
    by_cases h : server = sv
    · subst h
      rw [if_pos rfl]
      omega
    · rw [if_neg h]
      omega

theorem deadline_div (job : Task) (s w r : Nat) (hs : 1 ≤ s) (hw : 1 ≤ w) (hr : 1 ≤ r)
    (h : deadlineOk job s w r) :
    (job.required_storage : ℚ) / (s : ℚ) + (job.required_computation : ℚ) / (w : ℚ) +
      (job.required_results_data : ℚ) / (r : ℚ) ≤ (job.deadline : ℚ) := by
  have hs' : (0 : ℚ) < (s : ℚ) := by exact_mod_cast hs
  have hw' : (0 : ℚ) < (w : ℚ) := by exact_mod_cast hw
  have hr' : (0 : ℚ) < (r : ℚ) := by exact_mod_cast hr
  have h' : (job.required_storage : ℚ) * w * r + s * job.required_computation * r +
      s * w * job.required_results_data ≤ job.deadline * s * w * r := by
    exact_mod_cast h
  rw [div_add_div _ _ (ne_of_gt hs') (ne_of_gt hw'),
    div_add_div _ _ (by positivity) (ne_of_gt hr'), div_le_iff₀ (by positivity)]
  ring_nf
  ring_nf at h'
  linarith

theorem good_step (st : AllocState Task) (job : Task) (server : Server) (s w r : Nat)
    (hd : deadlineOk job s w r) (hs : 1 ≤ s) (hw : 1 ≤ w) (hr : 1 ≤ r)
    (hall : ∀ t a, findAlloc st t = some a → GoodAlloc t a) :
    ∀ t a, findAlloc (allocate st job (s : Int) (w : Int) (r : Int) server none) t = some a →
      GoodAlloc t a := by
  intro t a h
  rw [findAlloc_allocate] at h
  by_cases hj : job = t
  · rw [if_pos hj] at h
    injection h with h'
    subst hj
    subst h'
    unfold GoodAlloc
    dsimp only
    refine ⟨by exact_mod_cast hs, by exact_mod_cast hw, by exact_mod_cast hr, ?_⟩
    have hdiv := deadline_div job s w r hs hw hr hd
    push_cast
    exact_mod_cast hdiv
  · rw [if_neg hj] at h
    exact hall t a h

theorem matrix_greedy_invariants (jobs : List Task) (servers : List Server)
    (policy : AllocationValuePolicy) (st0 : AllocState Task)
    (h0 : ∀ sv ∈ servers, ServerInvariant sv st0) :
    ∀ sv ∈ servers, ServerInvariant sv (matrix_greedy jobs servers policy st0) := by
  unfold matrix_greedy
  refine matrixGreedyLoop_preserves servers policy
    (fun st => ∀ sv ∈ servers, ServerInvariant sv st) ?_ _ _ _ h0
  intro st v job server s w r hsv hcr hok hP sv hsvmem
  have hc := allocate_resources_correct job server st policy
  rw [hok] at hc
  exact inv_step st job server s w r hcr hc.1 sv (hP sv hsvmem)

theorem matrix_greedy_good (jobs : List Task) (servers : List Server)
    (policy : AllocationValuePolicy) (st0 : AllocState Task)
    (h0 : ∀ t a, findAlloc st0 t = some a → GoodAlloc t a) :
    ∀ t a, findAlloc (matrix_greedy jobs servers policy st0) t = some a → GoodAlloc t a := by
  unfold matrix_greedy
  refine matrixGreedyLoop_preserves servers policy
    (fun st => ∀ t a, findAlloc st t = some a → GoodAlloc t a) ?_ _ _ _ h0
  intro st v job server s w r hsv hcr hok hP
  have hc := allocate_resources_correct job server st policy
  rw [hok] at hc
  obtain ⟨⟨hs1, -, hw1, -, hr1, -⟩, hd, -, -⟩ := hc
  exact good_step st job server s w r hd hs1 hw1 hr1 hP

/-!  ## Lemmas about the optimal algorithm's commit loop  -/

theorem usedStorage_optStep (servers : List Server) (sol : CpoSolution) (sv : Server)
    (st : AllocState Task) (t : Task) :
    usedStorage (optStep servers sol st t) sv =
      (if pickedServer servers sol t = some sv then t.required_storage else 0) +
        usedStorage st sv := by
  cases hp : sol.pick t with
  | none => simp [optStep, pickedServer, hp]
  | some p =>
    obtain ⟨⟨s, w, r⟩, j⟩ := p
    cases hj : servers[j]? with
    | none => simp [optStep, pickedServer, hp, hj]
    | some sv' =>
      by_cases h : sv' = sv
      · subst h
        simp [optStep, pickedServer, hp, hj, usedStorage_allocate]
      · simp [optStep, pickedServer, hp, hj, usedStorage_allocate, h]

theorem usedComputation_optStep (servers : List Server) (sol : CpoSolution) (sv : Server)
    (st : AllocState Task) (t : Task) :
    usedComputation (optStep servers sol st t) sv =
      (if pickedServer servers sol t = some sv then
        ((sol.pick t).map (fun p => (p.1.2.1 : Int))).getD 0
      else 0) + usedComputation st sv := by
  cases hp : sol.pick t with
  | none => simp [optStep, pickedServer, hp]
  | some p =>
    obtain ⟨⟨s, w, r⟩, j⟩ := p
    cases hj : servers[j]? with
    | none => simp [optStep, pickedServer, hp, hj]
    | some sv' =>
      by_cases h : sv' = sv
      · subst h
        simp [optStep, pickedServer, hp, hj, usedComputation_allocate]
      · simp [optStep, pickedServer, hp, hj, usedComputation_allocate, h]

theorem usedBandwidth_optStep (servers : List Server) (sol : CpoSolution) (sv : Server)
    (st : AllocState Task) (t : Task) :
    usedBandwidth (optStep servers sol st t) sv =
      (if pickedServer servers sol t = some sv then
        ((sol.pick t).map (fun p => ((p.1.1 : Int) + (p.1.2.2 : Int)))).getD 0
      else 0) + usedBandwidth st sv := by
  cases hp : sol.pick t with
  | none => simp [optStep, pickedServer, hp]
  | some p =>
    obtain ⟨⟨s, w, r⟩, j⟩ := p
    cases hj : servers[j]? with
    | none => simp [optStep, pickedServer, hp, hj]
    | some sv' =>
      by_cases h : sv' = sv
      · subst h
        simp [optStep, pickedServer, hp, hj, usedBandwidth_allocate]
      · simp [optStep, pickedServer, hp, hj, usedBandwidth_allocate, h]

theorem usedStorage_optFold (servers : List Server) (sol : CpoSolution) (sv : Server)
    (ts : List Task) (st0 : AllocState Task) :
    usedStorage (ts.foldl (optStep servers sol) st0) sv =
      usedStorage st0 sv +
        (ts.map (fun t =>
          if pickedServer servers sol t = some sv then t.required_storage else 0)).sum := by
  induction ts generalizing st0 with
  | nil => simp
  | cons t ts ih =>
    rw [List.foldl_cons, ih, usedStorage_optStep]
    simp only [List.map_cons, List.sum_cons]
    omega

theorem usedComputation_optFold (servers : List Server) (sol : CpoSolution) (sv : Server)
    (ts : List Task) (st0 : AllocState Task) :
    usedComputation (ts.foldl (optStep servers sol) st0) sv =
      usedComputation st0 sv +
        (ts.map (fun t =>
          if pickedServer servers sol t = some sv then
            ((sol.pick t).map (fun p => (p.1.2.1 : Int))).getD 0
          else 0)).sum := by
  induction ts generalizing st0 with
  | nil => simp
  | cons t ts ih =>
    rw [List.foldl_cons, ih, usedComputation_optStep]
    simp only [List.map_cons, List.sum_cons]
    omega

theorem usedBandwidth_optFold (servers : List Server) (sol : CpoSolution) (sv : Server)
    (ts : List Task) (st0 : AllocState Task) :
    usedBandwidth (ts.foldl (optStep servers sol) st0) sv =
      usedBandwidth st0 sv +
        (ts.map (fun t =>
          if pickedServer servers sol t = some sv then
            ((sol.pick t).map (fun p => ((p.1.1 : Int) + (p.1.2.2 : Int)))).getD 0
          else 0)).sum := by
  induction ts generalizing st0 with
  | nil => simp
  | cons t ts ih =>
    rw [List.foldl_cons, ih, usedBandwidth_optStep]
    simp only [List.map_cons, List.sum_cons]
    omega

theorem optimal_commit_invariants (tasks : List Task) (servers : List Server)
    (sol : CpoSolution) (h : CpoRespectsCapacities tasks servers sol) :
    ∀ sv ∈ servers, ServerInvariant sv (optAllocState tasks servers sol) := by
  intro sv hsv
  obtain ⟨h1, h2, h3⟩ := h sv hsv
  unfold optAllocState
  refine ⟨?_, ?_, ?_⟩
  · rw [usedStorage_optFold]
    simpa [usedStorage] using h1
  · rw [usedComputation_optFold]
    simpa [usedComputation] using h2
  · rw [usedBandwidth_optFold]
    simpa [usedBandwidth] using h3

theorem optimal_algorithm_ok_some {tasks : List Task} {servers : List Server}
    {tl : Int} {sol : CpoSolution} {res : OptResult}
    (h : optimal_algorithm tasks servers tl sol = .ok (some res)) :
    res = ⟨sol.solve_status, optAllocState tasks servers sol⟩ := by
  unfold optimal_algorithm at h
  by_cases htl : tl ≤ 0
  · rw [if_pos htl] at h
    cases h
  · rw [if_neg htl] at h
    cases hmax : (servers.map Server.bandwidth_capacity).max? with
    | none =>
      rw [hmax] at h
      cases h
    | some m =>
      rw [hmax] at h
      dsimp only at h
      by_cases hst : sol.solve_status ≠ SolveStatus.feasible ∧
          sol.solve_status ≠ SolveStatus.optimal
      · rw [if_pos hst] at h
        cases h
      · rw [if_neg hst] at h
        injection h with h'
        injection h' with h''
        exact h''.symm

/-!  ## Lemmas about the fixed-optimal algorithm's commit loop  -/

theorem fixedUsedStorage_allocate (st : AllocState FixedTask) (t : FixedTask)
    (s w r : Int) (sv sv' : Server) (p : Option Int) :
    fixedUsedStorage (allocate st t s w r sv p) sv' =
      (if sv = sv' then t.required_storage else 0) + fixedUsedStorage st sv' := by
  simp only [allocate, fixedUsedStorage, List.filter_cons]
  by_cases h : sv = sv'
  · simp [h]
  · simp [h]

theorem fixedUsedComputation_allocate (st : AllocState FixedTask) (t : FixedTask)
    (s w r : Int) (sv sv' : Server) (p : Option Int) :
    fixedUsedComputation (allocate st t s w r sv p) sv' =
      (if sv = sv' then w else 0) + fixedUsedComputation st sv' := by
  simp only [allocate, fixedUsedComputation, List.filter_cons]
  by_cases h : sv = sv'
  · simp [h]
  · simp [h]

theorem fixedUsedBandwidth_allocate (st : AllocState FixedTask) (t : FixedTask)
    (s w r : Int) (sv sv' : Server) (p : Option Int) :
    fixedUsedBandwidth (allocate st t s w r sv p) sv' =
      (if sv = sv' then s + r else 0) + fixedUsedBandwidth st sv' := by
  simp only [allocate, fixedUsedBandwidth, List.filter_cons]
  by_cases h : sv = sv'
  · simp [h]
  · simp [h]

theorem fixedUsedStorage_optStep (servers : List Server) (sol : FixedCpoSolution)
    (sv : Server) (st : AllocState FixedTask) (t : FixedTask) :
    fixedUsedStorage (fixedOptStep servers sol st t) sv =
      (if fixedPickedServer servers sol t = some sv then t.required_storage else 0) +
        fixedUsedStorage st sv := by
  cases hp : sol.pick t with
  | none => simp [fixedOptStep, fixedPickedServer, hp]
  | some j =>
    cases hj : servers[j]? with
    | none => simp [fixedOptStep, fixedPickedServer, hp, hj]
    | some sv' =>
      by_cases h : sv' = sv
      · subst h
        simp [fixedOptStep, fixedPickedServer, hp, hj, fixedUsedStorage_allocate]
      · simp [fixedOptStep, fixedPickedServer, hp, hj, fixedUsedStorage_allocate, h]

theorem fixedUsedComputation_optStep (servers : List Server) (sol : FixedCpoSolution)
    (sv : Server) (st : AllocState FixedTask) (t : FixedTask) :
    fixedUsedComputation (fixedOptStep servers sol st t) sv =
      (if fixedPickedServer servers sol t = some sv then (t.compute_speed : Int) else 0) +
        fixedUsedComputation st sv := by
  cases hp : sol.pick t with
  | none => simp [fixedOptStep, fixedPickedServer, hp]
  | some j =>
    cases hj : servers[j]? with
    | none => simp [fixedOptStep, fixedPickedServer, hp, hj]
    | some sv' =>
      by_cases h : sv' = sv
      · subst h
        simp [fixedOptStep, fixedPickedServer, hp, hj, fixedUsedComputation_allocate]
      · simp [fixedOptStep, fixedPickedServer, hp, hj, fixedUsedComputation_allocate, h]

theorem fixedUsedBandwidth_optStep (servers : List Server) (sol : FixedCpoSolution)
    (sv : Server) (st : AllocState FixedTask) (t : FixedTask) :
    fixedUsedBandwidth (fixedOptStep servers sol st t) sv =
      (if fixedPickedServer servers sol t = some sv then
        ((t.loading_speed : Int) + (t.sending_speed : Int))
      else 0) + fixedUsedBandwidth st sv := by
  cases hp : sol.pick t with
  | none => simp [fixedOptStep, fixedPickedServer, hp]
  | some j =>
    cases hj : servers[j]? with
    | none => simp [fixedOptStep, fixedPickedServer, hp, hj]
    | some sv' =>
      by_cases h : sv' = sv
      · subst h
        simp [fixedOptStep, fixedPickedServer, hp, hj, fixedUsedBandwidth_allocate]
      · simp [fixedOptStep, fixedPickedServer, hp, hj, fixedUsedBandwidth_allocate, h]

theorem fixedUsedStorage_optFold (servers : List Server) (sol : FixedCpoSolution)
    (sv : Server) (ts : List FixedTask) (st0 : AllocState FixedTask) :
    fixedUsedStorage (ts.foldl (fixedOptStep servers sol) st0) sv =
      fixedUsedStorage st0 sv +
        (ts.map (fun t =>
          if fixedPickedServer servers sol t = some sv then t.required_storage else 0)).sum := by
  induction ts generalizing st0 with
  | nil => simp
  | cons t ts ih =>
    rw [List.foldl_cons, ih, fixedUsedStorage_optStep]
    simp only [List.map_cons, List.sum_cons]
    omega

theorem fixedUsedComputation_optFold (servers : List Server) (sol : FixedCpoSolution)
    (sv : Server) (ts : List FixedTask) (st0 : AllocState FixedTask) :
    fixedUsedComputation (ts.foldl (fixedOptStep servers sol) st0) sv =
      fixedUsedComputation st0 sv +
        (ts.map (fun t =>
          if fixedPickedServer servers sol t = some sv then (t.compute_speed : Int)
          else 0)).sum := by
  induction ts generalizing st0 with
  | nil => simp
  | cons t ts ih =>
    rw [List.foldl_cons, ih, fixedUsedComputation_optStep]
    simp only [List.map_cons, List.sum_cons]
    omega

theorem fixedUsedBandwidth_optFold (servers : List Server) (sol : FixedCpoSolution)
    (sv : Server) (ts : List FixedTask) (st0 : AllocState FixedTask) :
    fixedUsedBandwidth (ts.foldl (fixedOptStep servers sol) st0) sv =
      fixedUsedBandwidth st0 sv +
        (ts.map (fun t =>
          if fixedPickedServer servers sol t = some sv then
            ((t.loading_speed : Int) + (t.sending_speed : Int))
          else 0)).sum := by
  induction ts generalizing st0 with
  | nil => simp
  | cons t ts ih =>
    rw [List.foldl_cons, ih, fixedUsedBandwidth_optStep]
    simp only [List.map_cons, List.sum_cons]
    omega

theorem fixed_optimal_commit_invariants (tasks : List FixedTask) (servers : List Server)
    (sol : FixedCpoSolution) (h : FixedCpoRespectsCapacities tasks servers sol) :
    ∀ sv ∈ servers, FixedServerInvariant sv (fixedOptAllocState tasks servers sol) := by
  intro sv hsv
  obtain ⟨h1, h2, h3⟩ := h sv hsv
  unfold fixedOptAllocState
  refine ⟨?_, ?_, ?_⟩
  · rw [fixedUsedStorage_optFold]
    simpa [fixedUsedStorage] using h1
  · rw [fixedUsedComputation_optFold]
    simpa [fixedUsedComputation] using h2
  · rw [fixedUsedBandwidth_optFold]
    simpa [fixedUsedBandwidth] using h3

theorem fixed_optimal_algorithm_ok_some {tasks : List FixedTask} {servers : List Server}
    {tl : Int} {sol : FixedCpoSolution} {res : FixedOptResult}
    (h : fixed_optimal_algorithm tasks servers tl sol = .ok (some res)) :
    res = ⟨sol.solve_status, fixedOptAllocState tasks servers sol⟩ := by
  unfold fixed_optimal_algorithm at h
  by_cases htl : tl ≤ 0
  · rw [if_pos htl] at h
    cases h
  · rw [if_neg htl] at h
    by_cases hst : sol.solve_status ≠ SolveStatus.feasible ∧
        sol.solve_status ≠ SolveStatus.optimal
    · rw [if_pos hst] at h
      cases h
    · rw [if_neg hst] at h
      injection h with h'
      injection h' with h''
      exact h''.symm

theorem optFold_lookup (servers : List Server) (sol : CpoSolution) :
    ∀ (ts : List Task) (st0 : AllocState Task) (t : Task) (a : Alloc),
      findAlloc (ts.foldl (optStep servers sol) st0) t = some a →
      findAlloc st0 t = some a ∨
      (t ∈ ts ∧ ∃ s w r j sv, sol.pick t = some ((s, w, r), j) ∧ servers[j]? = some sv ∧
        a = ⟨(s : Int), (w : Int), (r : Int), sv, none⟩) := by
  intro ts
  induction ts with
  | nil =>
    intro st0 t a h
    exact Or.inl h
  | cons u ts ih =>
    intro st0 t a h
    rw [List.foldl_cons] at h
    rcases ih _ t a h with hbase | hrec
    · cases hp : sol.pick u with
      | none =>
        have he : optStep servers sol st0 u = st0 := by simp [optStep, hp]
        rw [he] at hbase
        exact Or.inl hbase
      | some p =>
        obtain ⟨⟨s, w, r⟩, j⟩ := p
        cases hj : servers[j]? with
        | none =>
          have he : optStep servers sol st0 u = st0 := by simp [optStep, hp, hj]
          rw [he] at hbase
          exact Or.inl hbase
        | some sv =>
          have he : optStep servers sol st0 u =
              allocate st0 u (s : Int) (w : Int) (r : Int) sv none := by
            simp [optStep, hp, hj]
          rw [he, findAlloc_allocate] at hbase
          by_cases ht : u = t
          · subst ht
            rw [if_pos rfl] at hbase
            injection hbase with hb
            exact Or.inr ⟨List.mem_cons_self _ _, s, w, r, j, sv, hp, hj, hb.symm⟩
          · rw [if_neg ht] at hbase
            exact Or.inl hbase
    · exact Or.inr ⟨List.mem_cons_of_mem _ hrec.1, hrec.2⟩

theorem optAllocState_lookup {tasks : List Task} {servers : List Server}
    {sol : CpoSolution} {t : Task} {a : Alloc}
    (h : findAlloc (optAllocState tasks servers sol) t = some a) :
    t ∈ tasks ∧ ∃ s w r j sv, sol.pick t = some ((s, w, r), j) ∧ servers[j]? = some sv ∧
      a = ⟨(s : Int), (w : Int), (r : Int), sv, none⟩ := by
  unfold optAllocState at h
  rcases optFold_lookup servers sol tasks [] t a h with hbase | hrec
  · exact Option.noConfusion hbase
  · exact hrec

/-- C5: after any commit by the embedded allocation algorithms every server
satisfies the three capacity invariants over its allocated tasks: the matrix
greedy allocator preserves them from any invariant-satisfying state, and the
optimal and fixed-optimal algorithms' committed states satisfy them whenever
the external CP solution satisfies the capacity constraints declared in the
respective model. -/
theorem C5_claim :
    (∀ (jobs : List Task) (servers : List Server) (policy : AllocationValuePolicy)
      (st0 : AllocState Task),
      (∀ sv ∈ servers, ServerInvariant sv st0) →
      ∀ sv ∈ servers, ServerInvariant sv (matrix_greedy jobs servers policy st0)) ∧
    (∀ (tasks : List Task) (servers : List Server) (tl : Int) (sol : CpoSolution)
      (res : OptResult),
      CpoRespectsCapacities tasks servers sol →
      optimal_algorithm tasks servers tl sol = .ok (some res) →
      ∀ sv ∈ servers, ServerInvariant sv res.state) ∧
    (∀ (tasks : List FixedTask) (servers : List Server) (tl : Int)
      (sol : FixedCpoSolution) (res : FixedOptResult),
      FixedCpoRespectsCapacities tasks servers sol →
      fixed_optimal_algorithm tasks servers tl sol = .ok (some res) →
      ∀ sv ∈ servers, FixedServerInvariant sv res.state) := by
  refine ⟨matrix_greedy_invariants, ?_, ?_⟩
  · intro tasks servers tl sol res hcap hres
    rw [optimal_algorithm_ok_some hres]
    exact optimal_commit_invariants tasks servers sol hcap
  · intro tasks servers tl sol res hcap hres
    rw [fixed_optimal_algorithm_ok_some hres]
    exact fixed_optimal_commit_invariants tasks servers sol hcap

set_option maxRecDepth 8000 in
/-- Witness for C5: all three parts evaluated on small concrete instances. -/
theorem C5_claim_witness :
    ((∀ sv ∈ [wServerSmall], ServerInvariant sv ([] : AllocState Task)) ∧
      (∀ sv ∈ [wServerSmall],
        ServerInvariant sv (matrix_greedy [wTaskSmall] [wServerSmall] wPolicy []))) ∧
    (CpoRespectsCapacities [wTaskSmall] [wServerSmall] wSolutionSmall ∧
      optimal_algorithm [wTaskSmall] [wServerSmall] 5 wSolutionSmall =
        .ok (some wOptResultSmall) ∧
      ∀ sv ∈ [wServerSmall], ServerInvariant sv wOptResultSmall.state) ∧
    (FixedCpoRespectsCapacities [wFixedTask] [wFixedServer] wFixedSolution ∧
      fixed_optimal_algorithm [wFixedTask] [wFixedServer] 5 wFixedSolution =
        .ok (some wFixedOptResult) ∧
      ∀ sv ∈ [wFixedServer], FixedServerInvariant sv wFixedOptResult.state) :=
  ⟨⟨by decide, C5_claim.1 [wTaskSmall] [wServerSmall] wPolicy [] (by decide)⟩,
   ⟨by decide, rfl,
    C5_claim.2.1 [wTaskSmall] [wServerSmall] 5 wSolutionSmall wOptResultSmall
      (by decide) rfl⟩,
   ⟨by decide, rfl,
    C5_claim.2.2 [wFixedTask] [wFixedServer] 5 wFixedSolution wFixedOptResult
      (by decide) rfl⟩⟩

/-!  ## Claims about the optimal wrapper's status handling  -/

theorem max?_cons_eq_some {x : Nat} {xs : List Nat} :
    (x :: xs).max? = some (xs.foldl max x) := rfl

theorem vcgPrices_none {α : Type} [DecidableEq α] (tasks : List α) (servers : List Server)
    (solver : Solver α) (sw : Nat) :
    ∀ l : List α, vcgPrices tasks servers solver sw l = none →
      ∃ t ∈ l, vcgResolve tasks servers solver t = none := by
  intro l
  induction l with
  | nil =>
    intro h
    exact absurd h (by simp [vcgPrices])
  | cons t rest ih =>
    intro h
    unfold vcgPrices at h
    cases hr : vcgResolve tasks servers solver t with
    | none => exact ⟨t, List.mem_cons_self _ _, hr⟩
    | some pr =>
      rw [hr] at h
      cases hps : vcgPrices tasks servers solver sw rest with
      | none =>
        obtain ⟨u, hu, hr'⟩ := ih hps
        exact ⟨u, List.mem_cons_of_mem _ hu, hr'⟩
      | some ps =>
        rw [hps] at h
        cases h

/-- C7: when the time limit and server list are valid, `optimal_algorithm`
returns `none` exactly when the solve status is neither feasible nor optimal;
on the degraded `feasible` status it returns the incumbent allocation in a
result carrying that status.  The VCG caller never substitutes zero for a
returned (possibly degraded) result: `vcg_solver` takes its zero-returning
failure path only when the full solve or one of the removal re-solves
returned no result at all. -/
theorem C7_claim (tasks : List Task) (servers : List Server) (tl : Int)
    (sol : CpoSolution) (h1 : 0 < tl) (h2 : servers ≠ []) :
    (optimal_algorithm tasks servers tl sol = .ok none ↔
      sol.solve_status ≠ SolveStatus.feasible ∧ sol.solve_status ≠ SolveStatus.optimal) ∧
    (sol.solve_status = SolveStatus.feasible →
      optimal_algorithm tasks servers tl sol =
        .ok (some ⟨SolveStatus.feasible, optAllocState tasks servers sol⟩)) ∧
    (∀ (α : Type) [DecidableEq α] (tasks2 : List α) (servers2 : List Server)
      (solver : Solver α) (st0 : AllocState α),
      vcg_solver tasks2 servers2 solver st0 = none →
      solver tasks2 st0 = none ∨
      ∃ opt, solver tasks2 st0 = some opt ∧
        ∃ t ∈ allocatedTasks tasks2 opt.state,
          solver (list_copy_remove tasks2 t) (reset_model tasks2 servers2) = none) := by
  have hmain : (optimal_algorithm tasks servers tl sol = .ok none ↔
      sol.solve_status ≠ SolveStatus.feasible ∧
        sol.solve_status ≠ SolveStatus.optimal) ∧
      (sol.solve_status = SolveStatus.feasible →
        optimal_algorithm tasks servers tl sol =
          .ok (some ⟨SolveStatus.feasible, optAllocState tasks servers sol⟩)) := by
    obtain ⟨x, xs, rfl⟩ : ∃ x xs, servers = x :: xs := by
      cases servers with
      | nil => exact absurd rfl h2
      | cons x xs => exact ⟨x, xs, rfl⟩
    unfold optimal_algorithm
    rw [if_neg (not_le.2 h1)]
    rw [List.map_cons, max?_cons_eq_some]
    dsimp only
    constructor
    · by_cases hst : sol.solve_status ≠ SolveStatus.feasible ∧
          sol.solve_status ≠ SolveStatus.optimal
      · rw [if_pos hst]
        simp [hst]
      · rw [if_neg hst]
        constructor
        · intro h
          cases h
        · intro h
          exact absurd h hst
    · intro hf
      have hst : ¬(sol.solve_status ≠ SolveStatus.feasible ∧
          sol.solve_status ≠ SolveStatus.optimal) := by
        simp [hf]
      rw [if_neg hst, hf]
  refine ⟨hmain.1, hmain.2, ?_⟩
  intro α inst tasks2 servers2 solver st0 hnone
  unfold vcg_solver at hnone
  cases ho : solver tasks2 st0 with
  | none => exact Or.inl rfl
  | some opt =>
    rw [ho] at hnone
    dsimp only at hnone
    cases hp : vcgPrices tasks2 servers2 solver opt.social_welfare
        (allocatedTasks tasks2 opt.state) with
    | none =>
      obtain ⟨t, ht, hr⟩ := vcgPrices_none tasks2 servers2 solver opt.social_welfare _ hp
      exact Or.inr ⟨opt, rfl, t, ht, hr⟩
    | some prices =>
      rw [hp] at hnone
      cases hnone

/-- Witness for C7: the status handling evaluated on the small concrete
instance with a degraded feasible solve, and the zero-substitution path
exercised with an always-failing solver. -/
theorem C7_claim_witness :
    (0 : Int) < 5 ∧ ([wServerSmall] ≠ []) ∧
    ((optimal_algorithm [wTaskSmall] [wServerSmall] 5 wSolutionFeas = .ok none ↔
      wSolutionFeas.solve_status ≠ SolveStatus.feasible ∧
        wSolutionFeas.solve_status ≠ SolveStatus.optimal) ∧
     (wSolutionFeas.solve_status = SolveStatus.feasible →
      optimal_algorithm [wTaskSmall] [wServerSmall] 5 wSolutionFeas =
        .ok (some ⟨SolveStatus.feasible,
          optAllocState [wTaskSmall] [wServerSmall] wSolutionFeas⟩))) ∧
    (vcg_solver [wFixedTask] [wFixedServer] wNoneSolver [] = none ∧
     (wNoneSolver [wFixedTask] [] = none ∨
      ∃ opt, wNoneSolver [wFixedTask] [] = some opt ∧
        ∃ t ∈ allocatedTasks [wFixedTask] opt.state,
          wNoneSolver (list_copy_remove [wFixedTask] t)
            (reset_model [wFixedTask] [wFixedServer]) = none)) :=
  ⟨by decide, by decide,
   ⟨(C7_claim [wTaskSmall] [wServerSmall] 5 wSolutionFeas (by decide) (by decide)).1,
    (C7_claim [wTaskSmall] [wServerSmall] 5 wSolutionFeas (by decide) (by decide)).2.1⟩,
   rfl,
   (C7_claim [wTaskSmall] [wServerSmall] 5 wSolutionFeas (by decide) (by decide)).2.2
     FixedTask [wFixedTask] [wFixedServer] wNoneSolver [] rfl⟩

/-- C9: on a non-empty task list with an empty server list,
`optimal_algorithm` raises an uncaught `ValueError` (Python `max` over the
empty server-capacity sequence, `optimal.py` line 31) before any model is
built, rather than returning `None` or a zero-value result. -/
theorem C9_claim (tasks : List Task) (tl : Int) (sol : CpoSolution)
    (h1 : tasks ≠ []) (h2 : 0 < tl) :
    optimal_algorithm tasks [] tl sol = .error .valueError := by
  have : tasks ≠ [] := h1
  unfold optimal_algorithm
  rw [if_neg (not_le.2 h2)]
  rfl

/-- Witness for C9: the error evaluated at a concrete non-empty task list and
the empty server list. -/
theorem C9_claim_witness :
    ([wTask] ≠ ([] : List Task)) ∧ (0 : Int) < 5 ∧
      optimal_algorithm [wTask] [] 5 wSolution = .error .valueError :=
  ⟨by decide, by decide, C9_claim [wTask] 5 wSolution (by decide) (by decide)⟩

/-!  ## Structure of the VCG price loop  -/

theorem vcgResolve_eq {α : Type} [DecidableEq α] (tasks : List α) (servers : List Server)
    (solver : Solver α) (t : α) :
    vcgResolve tasks servers solver t =
      solver (list_copy_remove tasks t) (reset_model tasks servers) := rfl

theorem vcgPrices_keys {α : Type} [DecidableEq α] (tasks : List α) (servers : List Server)
    (solver : Solver α) (sw : Nat) :
    ∀ (l : List α) (ps : List (α × Int)), vcgPrices tasks servers solver sw l = some ps →
      ps.map Prod.fst = l := by
  intro l
  induction l with
  | nil =>
    intro ps h
    injection h with h'
    rw [← h']
    rfl
  | cons t rest ih =>
    intro ps h
    unfold vcgPrices at h
    cases hr : vcgResolve tasks servers solver t with
    | none =>
      rw [hr] at h
      cases h
    | some pr =>
      rw [hr] at h
      cases hps : vcgPrices tasks servers solver sw rest with
      | none =>
        rw [hps] at h
        cases h
      | some ps' =>
        rw [hps] at h
        injection h with h'
        rw [← h']
        simp [ih ps' hps]

theorem vcgPrices_lookup {α : Type} [DecidableEq α] (tasks : List α) (servers : List Server)
    (solver : Solver α) (sw : Nat) :
    ∀ (l : List α) (ps : List (α × Int)), l.Nodup →
      vcgPrices tasks servers solver sw l = some ps →
      ∀ t ∈ l, ∃ pr, vcgResolve tasks servers solver t = some pr ∧
        lookupPrice ps t = some ((sw : Int) - (pr.social_welfare : Int)) := by
  intro l
  induction l with
  | nil =>
    intro ps _ _ t ht
    exact absurd ht (List.not_mem_nil _)
  | cons u rest ih =>
    intro ps hnd h t ht
    obtain ⟨hu, hndr⟩ := List.nodup_cons.1 hnd
    unfold vcgPrices at h
    cases hr : vcgResolve tasks servers solver u with
    | none =>
      rw [hr] at h
      cases h
    | some pr =>
      rw [hr] at h
      cases hps : vcgPrices tasks servers solver sw rest with
      | none =>
        rw [hps] at h
        cases h
      | some ps' =>
        rw [hps] at h
        injection h with h'
        rw [← h']
        rcases List.mem_cons.1 ht with rfl | htr
        · refine ⟨pr, hr, ?_⟩
          unfold lookupPrice
          rw [if_pos rfl]
        · obtain ⟨pr', hr', hl⟩ := ih ps' hndr hps t htr
          refine ⟨pr', hr', ?_⟩
          unfold lookupPrice
          rw [if_neg ?_]
          · exact hl
          · intro he
            exact hu (he ▸ htr)

theorem vcgPrices_mem {α : Type} [DecidableEq α] (tasks : List α) (servers : List Server)
    (solver : Solver α) (sw : Nat) :
    ∀ (l : List α) (ps : List (α × Int)), vcgPrices tasks servers solver sw l = some ps →
      ∀ t p, (t, p) ∈ ps → t ∈ l ∧ ∃ pr, vcgResolve tasks servers solver t = some pr ∧
        p = (sw : Int) - (pr.social_welfare : Int) := by
  intro l
  induction l with
  | nil =>
    intro ps h t p hm
    injection h with h'
    rw [← h'] at hm
    exact absurd hm (List.not_mem_nil _)
  | cons u rest ih =>
    intro ps h t p hm
    unfold vcgPrices at h
    cases hr : vcgResolve tasks servers solver u with
    | none =>
      rw [hr] at h
      cases h
    | some pr =>
      rw [hr] at h
      cases hps : vcgPrices tasks servers solver sw rest with
      | none =>
        rw [hps] at h
        cases h
      | some ps' =>
        rw [hps] at h
        injection h with h'
        rw [← h'] at hm
        rcases List.mem_cons.1 hm with he | hm'
        · obtain ⟨rfl, rfl⟩ : t = u ∧ p = (sw : Int) - (pr.social_welfare : Int) := by
            simpa [Prod.ext_iff] using he
          exact ⟨List.mem_cons_self _ _, pr, hr, rfl⟩
        · obtain ⟨htr, hrest⟩ := ih ps' hps t p hm'
          exact ⟨List.mem_cons_of_mem _ htr, hrest⟩

/-!  ## Lookup lemmas for the restore phase  -/

theorem findAlloc_cons {α : Type} [DecidableEq α] (u : α) (a : Alloc) (st : AllocState α)
    (t : α) : findAlloc ((u, a) :: st) t = if u = t then some a else findAlloc st t := rfl

theorem findAlloc_nil {α : Type} [DecidableEq α] (t : α) :
    findAlloc ([] : AllocState α) t = none := rfl

theorem findAlloc_eq_none_iff {α : Type} [DecidableEq α] (st : AllocState α) (t : α) :
    findAlloc st t = none ↔ t ∉ st.map Prod.fst := by
  induction st with
  | nil => simp [findAlloc_nil]
  | cons ua st ih =>
    obtain ⟨u, a⟩ := ua
    rw [findAlloc_cons]
    by_cases h : u = t
    · subst h
      simp
    · rw [if_neg h]
      simp [ih, Ne.symm h]

theorem findAlloc_append {α : Type} [DecidableEq α] (l1 l2 : AllocState α) (t : α) :
    findAlloc (l1 ++ l2) t =
      match findAlloc l1 t with
      | some a => some a
      | none => findAlloc l2 t := by
  induction l1 with
  | nil => rfl
  | cons ua l1 ih =>
    obtain ⟨u, a⟩ := ua
    rw [List.cons_append, findAlloc_cons, findAlloc_cons]
    by_cases h : u = t
    · rw [if_pos h, if_pos h]
    · rw [if_neg h, if_neg h, ih]

theorem findAlloc_reverse {α : Type} [DecidableEq α] (l : AllocState α) (t : α)
    (hnd : (l.map Prod.fst).Nodup) :
    findAlloc l.reverse t = findAlloc l t := by
  induction l with
  | nil => rfl
  | cons ua l ih =>
    obtain ⟨u, a⟩ := ua
    rw [List.map_cons, List.nodup_cons] at hnd
    obtain ⟨hu, hndl⟩ := hnd
    rw [List.reverse_cons, findAlloc_append, ih hndl, findAlloc_cons u a l t]
    by_cases h : u = t
    · subst h
      have hnone : findAlloc l u = none := (findAlloc_eq_none_iff l u).2 hu
      rw [hnone, if_pos rfl]
      show findAlloc [(u, a)] u = some a
      rw [findAlloc_cons, if_pos rfl]
    · rw [if_neg h]
      cases hfa : findAlloc l t with
      | none =>
        show findAlloc [(u, a)] t = none
        rw [findAlloc_cons, if_neg h]
        rfl
      | some b => rfl

theorem findAlloc_map_entry {α : Type} [DecidableEq α] (f : α → Alloc → Alloc)
    (l : AllocState α) (t : α) :
    findAlloc (l.map (fun ta => (ta.1, f ta.1 ta.2))) t = (findAlloc l t).map (f t) := by
  induction l with
  | nil => rfl
  | cons ua l ih =>
    obtain ⟨u, a⟩ := ua
    rw [List.map_cons]
    rw [findAlloc_cons u (f u a) (l.map (fun ta => (ta.1, f ta.1 ta.2))) t,
      findAlloc_cons u a l t]
    by_cases h : u = t
    · subst h
      rw [if_pos rfl, if_pos rfl]
      rfl
    · rw [if_neg h, if_neg h]
      exact ih

theorem findAlloc_filterMap {α : Type} [DecidableEq α] (st : AllocState α) :
    ∀ (l : List α), (∀ u ∈ l, (findAlloc st u).isSome) → ∀ t,
      findAlloc (l.filterMap (fun u => (findAlloc st u).map (fun a => (u, a)))) t =
        if t ∈ l then findAlloc st t else none := by
  intro l
  induction l with
  | nil =>
    intro _ t
    simp [findAlloc_nil]
  | cons u l ih =>
    intro hl t
    obtain ⟨a, ha⟩ := Option.isSome_iff_exists.1 (hl u (List.mem_cons_self _ _))
    rw [List.filterMap_cons, ha]
    simp only [Option.map_some']
    rw [findAlloc_cons]
    by_cases h : u = t
    · subst h
      rw [if_pos rfl, if_pos (List.mem_cons_self _ _), ha]
    · rw [if_neg h, ih (fun v hv => hl v (List.mem_cons_of_mem _ hv)) t]
      by_cases ht : t ∈ l
      · rw [if_pos ht, if_pos (List.mem_cons_of_mem _ ht)]
      · rw [if_neg ht, if_neg ?_]
        intro hm
        rcases List.mem_cons.1 hm with he | hm'
        · exact h he.symm
        · exact ht hm'

theorem allocatedTasks_isSome {α : Type} [DecidableEq α] {tasks : List α}
    {st : AllocState α} : ∀ u ∈ allocatedTasks tasks st, (findAlloc st u).isSome := by
  intro u hu
  have := List.of_mem_filter hu
  simpa using this

theorem allocatedTasks_sub {α : Type} [DecidableEq α] {tasks : List α}
    {st : AllocState α} : ∀ u ∈ allocatedTasks tasks st, u ∈ tasks := by
  intro u hu
  exact List.mem_of_mem_filter hu

theorem allocatedTasks_nodup {α : Type} [DecidableEq α] {tasks : List α}
    {st : AllocState α} (h : tasks.Nodup) : (allocatedTasks tasks st).Nodup :=
  List.Nodup.filter _ h

theorem filterMap_keys {α : Type} [DecidableEq α] (st : AllocState α) :
    ∀ l : List α, (∀ u ∈ l, (findAlloc st u).isSome) →
      (l.filterMap (fun u => (findAlloc st u).map (fun a => (u, a)))).map Prod.fst = l := by
  intro l
  induction l with
  | nil => intro _; rfl
  | cons u l ih =>
    intro hl
    obtain ⟨a, ha⟩ := Option.isSome_iff_exists.1 (hl u (List.mem_cons_self _ _))
    rw [List.filterMap_cons, ha]
    simp only [Option.map_some']
    rw [List.map_cons]
    rw [ih (fun v hv => hl v (List.mem_cons_of_mem _ hv))]

theorem savedAllocation_keys {α : Type} [DecidableEq α] (tasks : List α)
    (st : AllocState α) :
    (savedAllocation tasks st).map Prod.fst = allocatedTasks tasks st := by
  unfold savedAllocation
  exact filterMap_keys st (allocatedTasks tasks st) allocatedTasks_isSome

theorem findAlloc_savedAllocation {α : Type} [DecidableEq α] (tasks : List α)
    (st : AllocState α) (t : α) :
    findAlloc (savedAllocation tasks st) t =
      if t ∈ allocatedTasks tasks st then findAlloc st t else none := by
  unfold savedAllocation
  exact findAlloc_filterMap st (allocatedTasks tasks st) allocatedTasks_isSome t

theorem foldl_allocate_eq {α : Type} [DecidableEq α] (prices : List (α × Int)) :
    ∀ (l : List (α × Alloc)) (init : AllocState α),
      l.foldl (fun s ta => allocate s ta.1 ta.2.loading_speed ta.2.compute_speed
        ta.2.sending_speed ta.2.running_server (lookupPrice prices ta.1)) init =
      (l.map (fun ta => (ta.1, (⟨ta.2.loading_speed, ta.2.compute_speed, ta.2.sending_speed,
        ta.2.running_server, lookupPrice prices ta.1⟩ : Alloc)))).reverse ++ init := by
  intro l
  induction l with
  | nil =>
    intro init
    simp
  | cons ta l ih =>
    intro init
    rw [List.foldl_cons, ih]
    simp [allocate, List.append_assoc]

theorem vcg_solver_eq {α : Type} [DecidableEq α] {tasks : List α} {servers : List Server}
    {solver : Solver α} {st0 : AllocState α} {out : List (α × Int) × AllocState α}
    (h : vcg_solver tasks servers solver st0 = some out) :
    ∃ opt prices, solver tasks st0 = some opt ∧
      vcgPrices tasks servers solver opt.social_welfare
        (allocatedTasks tasks opt.state) = some prices ∧
      out.1 = prices ∧
      out.2 = (savedAllocation tasks opt.state).foldl
        (fun s ta => allocate s ta.1 ta.2.loading_speed ta.2.compute_speed
          ta.2.sending_speed ta.2.running_server (lookupPrice prices ta.1))
        (reset_model tasks servers) := by
  unfold vcg_solver at h
  cases ho : solver tasks st0 with
  | none =>
    rw [ho] at h
    cases h
  | some opt =>
    rw [ho] at h
    dsimp only at h
    cases hp : vcgPrices tasks servers solver opt.social_welfare
        (allocatedTasks tasks opt.state) with
    | none =>
      rw [hp] at h
      cases h
    | some prices =>
      rw [hp] at h
      injection h with h'
      refine ⟨opt, prices, rfl, hp, ?_, ?_⟩
      · rw [← h']
      · rw [← h']

theorem vcg_final_lookup {α : Type} [DecidableEq α] (tasks : List α) (st : AllocState α)
    (servers : List Server) (prices : List (α × Int)) (hnd : tasks.Nodup) (t : α) :
    findAlloc ((savedAllocation tasks st).foldl
      (fun s ta => allocate s ta.1 ta.2.loading_speed ta.2.compute_speed
        ta.2.sending_speed ta.2.running_server (lookupPrice prices ta.1))
      (reset_model tasks servers)) t =
    (if t ∈ allocatedTasks tasks st then findAlloc st t else none).map
      (fun a => ⟨a.loading_speed, a.compute_speed, a.sending_speed, a.running_server,
        lookupPrice prices t⟩) := by
  rw [foldl_allocate_eq]
  have hreset : reset_model tasks servers = ([] : AllocState α) := rfl
  rw [hreset, List.append_nil]
  have hkeysmap : ((savedAllocation tasks st).map
      (fun ta => (ta.1, (⟨ta.2.loading_speed, ta.2.compute_speed, ta.2.sending_speed,
        ta.2.running_server, lookupPrice prices ta.1⟩ : Alloc)))).map Prod.fst =
      (savedAllocation tasks st).map Prod.fst := by
    rw [List.map_map]
    rfl
  have hkeys : (((savedAllocation tasks st).map
      (fun ta => (ta.1, (⟨ta.2.loading_speed, ta.2.compute_speed, ta.2.sending_speed,
        ta.2.running_server, lookupPrice prices ta.1⟩ : Alloc)))).map Prod.fst).Nodup := by
    rw [hkeysmap, savedAllocation_keys]
    exact allocatedTasks_nodup hnd
  rw [findAlloc_reverse _ _ hkeys]
  rw [findAlloc_map_entry (f := fun u a =>
    (⟨a.loading_speed, a.compute_speed, a.sending_speed, a.running_server,
      lookupPrice prices u⟩ : Alloc))]
  rw [findAlloc_savedAllocation]

/-- C1: whenever `vcg_solver` succeeds, each task accepted in the optimal
allocation is priced `V* − V(−t)`, where `V*` is the full solve's social
welfare and `V(−t)` the welfare of the re-solve on the instance with the task
removed; prices (and hence removal re-solves) are computed exactly for the
accepted tasks. -/
theorem C1_claim {α : Type} [DecidableEq α] (tasks : List α) (servers : List Server)
    (solver : Solver α) (st0 : AllocState α) (out : List (α × Int) × AllocState α)
    (hnd : tasks.Nodup) (h : vcg_solver tasks servers solver st0 = some out) :
    ∃ opt, solver tasks st0 = some opt ∧
      out.1.map Prod.fst = allocatedTasks tasks opt.state ∧
      ∀ t ∈ allocatedTasks tasks opt.state, ∃ pr,
        solver (list_copy_remove tasks t) (reset_model tasks servers) = some pr ∧
        lookupPrice out.1 t =
          some ((opt.social_welfare : Int) - (pr.social_welfare : Int)) := by
  obtain ⟨opt, prices, ho, hp, h1, h2⟩ := vcg_solver_eq h
  refine ⟨opt, ho, ?_, ?_⟩
  · rw [h1]
    exact vcgPrices_keys tasks servers solver opt.social_welfare _ prices hp
  · intro t ht
    obtain ⟨pr, hr, hl⟩ := vcgPrices_lookup tasks servers solver opt.social_welfare _
      prices (allocatedTasks_nodup hnd) hp t ht
    refine ⟨pr, hr, ?_⟩
    rw [h1]
    exact hl

/-- Witness for C1: the pricing structure evaluated on a concrete two-task
fixed-speed instance solved by the exact fixed-speed solver. -/
theorem C1_claim_witness :
    List.Nodup [wFixedTask, wFixedTask2] ∧
    vcg_solver [wFixedTask, wFixedTask2] [wFixedServer] (fixedSolver [wFixedServer]) [] =
      some wVcgOut ∧
    (∃ opt, fixedSolver [wFixedServer] [wFixedTask, wFixedTask2] [] = some opt ∧
      wVcgOut.1.map Prod.fst = allocatedTasks [wFixedTask, wFixedTask2] opt.state ∧
      ∀ t ∈ allocatedTasks [wFixedTask, wFixedTask2] opt.state, ∃ pr,
        fixedSolver [wFixedServer] (list_copy_remove [wFixedTask, wFixedTask2] t)
          (reset_model [wFixedTask, wFixedTask2] [wFixedServer]) = some pr ∧
        lookupPrice wVcgOut.1 t =
          some ((opt.social_welfare : Int) - (pr.social_welfare : Int))) :=
  ⟨by decide, rfl,
   C1_claim [wFixedTask, wFixedTask2] [wFixedServer] (fixedSolver [wFixedServer]) []
     wVcgOut (by decide) rfl⟩

theorem foldl_allocate_fixed_eq {α : Type} [DecidableEq α] (prices : List (α × Int)) :
    ∀ (l : List (α × Alloc)) (init : AllocState α),
      l.foldl (fun s ta => allocate s ta.1 (-1) (-1) (-1) ta.2.running_server
        (lookupPrice prices ta.1)) init =
      (l.map (fun ta => (ta.1, (⟨-1, -1, -1,
        ta.2.running_server, lookupPrice prices ta.1⟩ : Alloc)))).reverse ++ init := by
  intro l
  induction l with
  | nil =>
    intro init
    simp
  | cons ta l ih =>
    intro init
    rw [List.foldl_cons, ih]
    simp [allocate, List.append_assoc]

theorem fixed_final_lookup {α : Type} [DecidableEq α] (tasks : List α) (st : AllocState α)
    (servers : List Server) (prices : List (α × Int)) (hnd : tasks.Nodup) (t : α) :
    findAlloc ((savedAllocation tasks st).foldl
      (fun s ta => allocate s ta.1 (-1) (-1) (-1) ta.2.running_server
        (lookupPrice prices ta.1))
      (reset_model tasks servers)) t =
    (if t ∈ allocatedTasks tasks st then findAlloc st t else none).map
      (fun a => ⟨-1, -1, -1, a.running_server, lookupPrice prices t⟩) := by
  rw [foldl_allocate_fixed_eq]
  have hreset : reset_model tasks servers = ([] : AllocState α) := rfl
  rw [hreset, List.append_nil]
  have hkeysmap : ((savedAllocation tasks st).map
      (fun ta => (ta.1, (⟨-1, -1, -1,
        ta.2.running_server, lookupPrice prices ta.1⟩ : Alloc)))).map Prod.fst =
      (savedAllocation tasks st).map Prod.fst := by
    rw [List.map_map]
    rfl
  have hkeys : (((savedAllocation tasks st).map
      (fun ta => (ta.1, (⟨-1, -1, -1,
        ta.2.running_server, lookupPrice prices ta.1⟩ : Alloc)))).map Prod.fst).Nodup := by
    rw [hkeysmap, savedAllocation_keys]
    exact allocatedTasks_nodup hnd
  rw [findAlloc_reverse _ _ hkeys]
  rw [findAlloc_map_entry (f := fun u a =>
    (⟨-1, -1, -1, a.running_server, lookupPrice prices u⟩ : Alloc))]
  rw [findAlloc_savedAllocation]

theorem fixed_vcg_auction_eq {tasks : List FixedTask} {servers : List Server}
    {st0 : AllocState FixedTask} {out : List (FixedTask × Int) × AllocState FixedTask}
    (h : fixed_vcg_auction tasks servers st0 = some out) :
    ∃ opt prices, fixedSolver servers tasks st0 = some opt ∧
      vcgPrices tasks servers (fixedSolver servers) opt.social_welfare
        (allocatedTasks tasks opt.state) = some prices ∧
      out.1 = prices ∧
      out.2 = (savedAllocation tasks opt.state).foldl
        (fun s ta => allocate s ta.1 (-1) (-1) (-1) ta.2.running_server
          (lookupPrice prices ta.1))
        (reset_model tasks servers) := by
  unfold fixed_vcg_auction at h
  cases ho : fixedSolver servers tasks st0 with
  | none =>
    rw [ho] at h
    cases h
  | some opt =>
    rw [ho] at h
    dsimp only at h
    cases hp : vcgPrices tasks servers (fixedSolver servers) opt.social_welfare
        (allocatedTasks tasks opt.state) with
    | none =>
      rw [hp] at h
      cases h
    | some prices =>
      rw [hp] at h
      injection h with h'
      refine ⟨opt, prices, rfl, hp, ?_, ?_⟩
      · rw [← h']
      · rw [← h']

/-- C3 (counterexample): in the fixed VCG auction's full solve the accepted
task runs at its fixed loading speed 1, but after the restore phase
(`fixed_vcg_auction.py` line 75) its committed loading speed is the sentinel
`-1`, so the final committed state does not equal the optimal allocation with
its original speeds. -/
theorem C3_claim_counterexample :
    (fixedSolver [wFixedServer] [wFixedTask, wFixedTask2] []).map
      (fun o => (findAlloc o.state wFixedTask).map (fun a => a.loading_speed)) =
      some (some 1) ∧
    (fixed_vcg_auction [wFixedTask, wFixedTask2] [wFixedServer] []).map
      (fun out => (findAlloc out.2 wFixedTask).map (fun a => a.loading_speed)) =
      some (some (-1)) ∧
    ¬ ((1 : Int) = -1) :=
  ⟨rfl, rfl, by decide⟩

/-- C3 (amended): whenever `vcg_solver` succeeds, the final committed state
equals the saved optimal allocation with the computed prices attached — every
task of the instance is allocated in the final state iff it was accepted by
the full solve, with the same loading, compute and sending speeds and the
same running server, and its price looked up from the price table; no task
outside the instance is allocated, so the removal re-solves leave no trace.
In the fixed VCG auction the restore phase likewise reallocates exactly the
accepted tasks on their original servers with their prices, but commits the
sentinel speed triple `(-1, -1, -1)` in place of the original speeds. -/
theorem C3_claim_amended :
    (∀ (α : Type) [DecidableEq α] (tasks : List α) (servers : List Server)
      (solver : Solver α) (st0 : AllocState α) (out : List (α × Int) × AllocState α),
      tasks.Nodup → vcg_solver tasks servers solver st0 = some out →
      ∃ opt, solver tasks st0 = some opt ∧
        (∀ t ∈ tasks, findAlloc out.2 t = (findAlloc opt.state t).map
          (fun a => ⟨a.loading_speed, a.compute_speed, a.sending_speed, a.running_server,
            lookupPrice out.1 t⟩)) ∧
        (∀ t, t ∉ tasks → findAlloc out.2 t = none)) ∧
    (∀ (tasks : List FixedTask) (servers : List Server) (st0 : AllocState FixedTask)
      (out : List (FixedTask × Int) × AllocState FixedTask),
      tasks.Nodup → fixed_vcg_auction tasks servers st0 = some out →
      ∃ opt, fixedSolver servers tasks st0 = some opt ∧
        (∀ t ∈ tasks, findAlloc out.2 t = (findAlloc opt.state t).map
          (fun a => ⟨-1, -1, -1, a.running_server, lookupPrice out.1 t⟩)) ∧
        (∀ t, t ∉ tasks → findAlloc out.2 t = none)) := by
  constructor
  · intro α inst tasks servers solver st0 out hnd h
    obtain ⟨opt, prices, ho, hp, h1, h2⟩ := vcg_solver_eq h
    refine ⟨opt, ho, ?_, ?_⟩
    · intro t ht
      rw [h2, h1, vcg_final_lookup tasks opt.state servers prices hnd t]
      by_cases hat : t ∈ allocatedTasks tasks opt.state
      · rw [if_pos hat]
      · rw [if_neg hat]
        have hnone : findAlloc opt.state t = none := by
          cases hfa : findAlloc opt.state t with
          | none => rfl
          | some a =>
            exfalso
            exact hat (List.mem_filter.2 ⟨ht, by simp [hfa]⟩)
        rw [hnone]
    · intro t ht
      rw [h2, vcg_final_lookup tasks opt.state servers prices hnd t]
      rw [if_neg (fun hc => ht (allocatedTasks_sub _ hc))]
      rfl
  · intro tasks servers st0 out hnd h
    obtain ⟨opt, prices, ho, hp, h1, h2⟩ := fixed_vcg_auction_eq h
    refine ⟨opt, ho, ?_, ?_⟩
    · intro t ht
      rw [h2, h1, fixed_final_lookup tasks opt.state servers prices hnd t]
      by_cases hat : t ∈ allocatedTasks tasks opt.state
      · rw [if_pos hat]
      · rw [if_neg hat]
        have hnone : findAlloc opt.state t = none := by
          cases hfa : findAlloc opt.state t with
          | none => rfl
          | some a =>
            exfalso
            exact hat (List.mem_filter.2 ⟨ht, by simp [hfa]⟩)
        rw [hnone]
    · intro t ht
      rw [h2, fixed_final_lookup tasks opt.state servers prices hnd t]
      rw [if_neg (fun hc => ht (allocatedTasks_sub _ hc))]
      rfl

/-- Witness for C3 (amended): the restore equations evaluated on the concrete
two-task fixed-speed instance, through `vcg_solver` (original speeds kept)
and through `fixed_vcg_auction` (sentinel speeds). -/
theorem C3_claim_amended_witness :
    (List.Nodup [wFixedTask, wFixedTask2] ∧
     vcg_solver [wFixedTask, wFixedTask2] [wFixedServer] (fixedSolver [wFixedServer]) [] =
       some wVcgOut ∧
     (∃ opt, fixedSolver [wFixedServer] [wFixedTask, wFixedTask2] [] = some opt ∧
       (∀ t ∈ [wFixedTask, wFixedTask2], findAlloc wVcgOut.2 t =
         (findAlloc opt.state t).map
           (fun a => ⟨a.loading_speed, a.compute_speed, a.sending_speed, a.running_server,
             lookupPrice wVcgOut.1 t⟩)) ∧
       (∀ t, t ∉ [wFixedTask, wFixedTask2] → findAlloc wVcgOut.2 t = none))) ∧
    (fixed_vcg_auction [wFixedTask, wFixedTask2] [wFixedServer] [] = some wFixedVcgOut ∧
     (∃ opt, fixedSolver [wFixedServer] [wFixedTask, wFixedTask2] [] = some opt ∧
       (∀ t ∈ [wFixedTask, wFixedTask2], findAlloc wFixedVcgOut.2 t =
         (findAlloc opt.state t).map
           (fun a => ⟨-1, -1, -1, a.running_server, lookupPrice wFixedVcgOut.1 t⟩)) ∧
       (∀ t, t ∉ [wFixedTask, wFixedTask2] → findAlloc wFixedVcgOut.2 t = none))) :=
  ⟨⟨by decide, rfl,
    C3_claim_amended.1 FixedTask [wFixedTask, wFixedTask2] [wFixedServer]
      (fixedSolver [wFixedServer]) [] wVcgOut (by decide) rfl⟩,
   ⟨rfl,
    C3_claim_amended.2 [wFixedTask, wFixedTask2] [wFixedServer] [] wFixedVcgOut
      (by decide) rfl⟩⟩

/-- C6 (counterexample): the fixed VCG restore phase (`fixed_vcg_auction.py`
line 75) commits the sentinel speed triple `(-1, -1, -1)`, so an accepted
task is left allocated with loading speed `-1 < 1`. -/
theorem C6_claim_counterexample :
    (fixed_vcg_auction [wFixedTask] [wFixedServer] []).map
      (fun out => (findAlloc out.2 wFixedTask).map (fun a => a.loading_speed)) =
        some (some (-1)) ∧ ¬ (1 : Int) ≤ -1 :=
  ⟨rfl, by decide⟩

/-- C6 (amended): every task left allocated by the matrix greedy allocator
(from a state whose allocations are all well-formed), by the optimal
algorithm's commit (whenever the external CP solution satisfies the declared
speed bounds and deadline constraints), or by the flexible VCG restore phase
(whenever the full solve's state was well-formed) has a speed triple of
values at least one satisfying `required_storage/loading_speed +
required_computation/compute_speed + required_results_data/sending_speed ≤
deadline`; only the fixed VCG restore phase is excluded, since it rewrites
the committed speeds to the sentinel triple `(-1, -1, -1)`. -/
theorem C6_claim_amended :
    (∀ (jobs : List Task) (servers : List Server) (policy : AllocationValuePolicy)
      (st0 : AllocState Task),
      (∀ t a, findAlloc st0 t = some a → GoodAlloc t a) →
      ∀ t a, findAlloc (matrix_greedy jobs servers policy st0) t = some a →
        GoodAlloc t a) ∧
    (∀ (tasks : List Task) (servers : List Server) (tl : Int) (sol : CpoSolution)
      (res : OptResult),
      CpoRespectsDeadlines tasks sol →
      optimal_algorithm tasks servers tl sol = .ok (some res) →
      ∀ t a, findAlloc res.state t = some a → GoodAlloc t a) ∧
    (∀ (tasks : List Task) (servers : List Server) (solver : Solver Task)
      (st0 : AllocState Task) (out : List (Task × Int) × AllocState Task)
      (opt : SolverOut Task),
      tasks.Nodup → vcg_solver tasks servers solver st0 = some out →
      solver tasks st0 = some opt →
      (∀ t a, findAlloc opt.state t = some a → GoodAlloc t a) →
      ∀ t a, findAlloc out.2 t = some a → GoodAlloc t a) := by
  refine ⟨matrix_greedy_good, ?_, ?_⟩
  · intro tasks servers tl sol res hdl hres t a h
    have hst : res.state = optAllocState tasks servers sol := by
      rw [optimal_algorithm_ok_some hres]
    rw [hst] at h
    obtain ⟨htm, s, w, r, j, sv, hpick, hj, ha⟩ := optAllocState_lookup h
    have hok := hdl t htm
    rw [hpick] at hok
    obtain ⟨hs, hw, hr, hd⟩ := hok
    subst ha
    unfold GoodAlloc
    dsimp only
    refine ⟨by exact_mod_cast hs, by exact_mod_cast hw, by exact_mod_cast hr, ?_⟩
    have hdiv := deadline_div t s w r hs hw hr hd
    push_cast
    exact_mod_cast hdiv
  · intro tasks servers solver st0 out opt hnd hv ho hwf t a h
    obtain ⟨opt', prices, ho', hp, h1, h2⟩ := vcg_solver_eq hv
    obtain rfl : opt = opt' := by
      rw [ho] at ho'
      injection ho' with ho''
    rw [h2, vcg_final_lookup tasks opt.state servers prices hnd t] at h
    by_cases hat : t ∈ allocatedTasks tasks opt.state
    · rw [if_pos hat] at h
      cases hfa : findAlloc opt.state t with
      | none =>
        rw [hfa] at h
        exact absurd h (by simp)
      | some a0 =>
        rw [hfa] at h
        simp only [Option.map_some'] at h
        injection h with h'
        rw [← h']
        obtain ⟨g1, g2, g3, g4⟩ := hwf t a0 hfa
        exact ⟨g1, g2, g3, g4⟩
    · rw [if_neg hat] at h
      exact absurd h (by simp)

set_option maxRecDepth 8000 in
/-- Witness for C6 (amended): all three parts evaluated on the small concrete
instance — the greedy commit `(1, 3, 3)`, the optimal commit `(2, 2, 2)`, and
the VCG-restored allocation `(1, 3, 3)` with price 0 are all well-formed. -/
theorem C6_claim_amended_witness :
    (findAlloc (matrix_greedy [wTaskSmall] [wServerSmall] wPolicy []) wTaskSmall =
       some wAllocSmall ∧ GoodAlloc wTaskSmall wAllocSmall) ∧
    (CpoRespectsDeadlines [wTaskSmall] wSolutionSmall ∧
     findAlloc wOptResultSmall.state wTaskSmall = some wAllocOpt ∧
     GoodAlloc wTaskSmall wAllocOpt) ∧
    (vcg_solver [wTaskSmall] [wServerSmall] wTaskSolver [] = some wVcgOutT ∧
     findAlloc wVcgOutT.2 wTaskSmall = some wAllocRestored ∧
     GoodAlloc wTaskSmall wAllocRestored) := by
  have hm : findAlloc (matrix_greedy [wTaskSmall] [wServerSmall] wPolicy []) wTaskSmall =
      some wAllocSmall := by decide
  have hg : GoodAlloc wTaskSmall wAllocSmall :=
    C6_claim_amended.1 [wTaskSmall] [wServerSmall] wPolicy []
      (fun _ _ h => Option.noConfusion h) wTaskSmall wAllocSmall hm
  have hwf : ∀ t a, findAlloc [(wTaskSmall, wAllocSmall)] t = some a → GoodAlloc t a := by
    intro t a h
    rw [findAlloc_cons] at h
    by_cases ht : wTaskSmall = t
    · rw [if_pos ht] at h
      injection h with h'
      subst ht
      rw [← h']
      exact hg
    · rw [if_neg ht] at h
      exact Option.noConfusion h
  refine ⟨⟨hm, hg⟩, ⟨by decide, by decide, ?_⟩, ⟨rfl, rfl, ?_⟩⟩
  · exact C6_claim_amended.2.1 [wTaskSmall] [wServerSmall] 5 wSolutionSmall
      wOptResultSmall (by decide) rfl wTaskSmall wAllocOpt (by decide)
  · exact C6_claim_amended.2.2 [wTaskSmall] [wServerSmall] wTaskSolver [] wVcgOutT
      ⟨7, [(wTaskSmall, wAllocSmall)]⟩ (by decide) rfl rfl hwf
      wTaskSmall wAllocRestored rfl

/-- C10: whenever `vcg_solver` succeeds, each removal re-solve is run on a
fresh copy of the task list with exactly the first occurrence of that task
removed (one element shorter, every other multiplicity unchanged, the removed
task absent), taken after a full model reset; the reset state allocates
nothing, so every re-solve starts from cleared allocation state, and the
original task list value is never modified. -/
theorem C10_claim {α : Type} [DecidableEq α] (tasks : List α) (servers : List Server)
    (solver : Solver α) (st0 : AllocState α) (out : List (α × Int) × AllocState α)
    (hnd : tasks.Nodup) (h : vcg_solver tasks servers solver st0 = some out) :
    ∃ opt, solver tasks st0 = some opt ∧
      (∀ t ∈ allocatedTasks tasks opt.state,
        (∃ pr, solver (list_copy_remove tasks t) (reset_model tasks servers) = some pr) ∧
        (list_copy_remove tasks t).length + 1 = tasks.length ∧
        t ∉ list_copy_remove tasks t ∧
        ∀ u, u ≠ t → (list_copy_remove tasks t).count u = tasks.count u) ∧
      (∀ u : α, findAlloc (reset_model tasks servers) u = none) := by
  obtain ⟨opt, prices, ho, hp, h1, h2⟩ := vcg_solver_eq h
  refine ⟨opt, ho, ?_, fun u => rfl⟩
  intro t ht
  have htm : t ∈ tasks := allocatedTasks_sub _ ht
  obtain ⟨pr, hr, -⟩ := vcgPrices_lookup tasks servers solver opt.social_welfare _
    prices (allocatedTasks_nodup hnd) hp t ht
  refine ⟨⟨pr, hr⟩, ?_, ?_, ?_⟩
  · have hlen := List.length_erase_of_mem htm
    have hpos := List.length_pos_of_mem htm
    unfold list_copy_remove
    omega
  · intro hc
    unfold list_copy_remove at hc
    exact ((List.Nodup.mem_erase_iff hnd).1 hc).1 rfl
  · intro u hu
    unfold list_copy_remove
    exact List.count_erase_of_ne hu tasks

/-- Witness for C10: the fresh-copy and reset facts evaluated on the concrete
two-task fixed-speed instance. -/
theorem C10_claim_witness :
    List.Nodup [wFixedTask, wFixedTask2] ∧
    vcg_solver [wFixedTask, wFixedTask2] [wFixedServer] (fixedSolver [wFixedServer]) [] =
      some wVcgOut ∧
    (∃ opt, fixedSolver [wFixedServer] [wFixedTask, wFixedTask2] [] = some opt ∧
      (∀ t ∈ allocatedTasks [wFixedTask, wFixedTask2] opt.state,
        (∃ pr, fixedSolver [wFixedServer] (list_copy_remove [wFixedTask, wFixedTask2] t)
          (reset_model [wFixedTask, wFixedTask2] [wFixedServer]) = some pr) ∧
        (list_copy_remove [wFixedTask, wFixedTask2] t).length + 1 =
          ([wFixedTask, wFixedTask2] : List FixedTask).length ∧
        t ∉ list_copy_remove [wFixedTask, wFixedTask2] t ∧
        ∀ u, u ≠ t → (list_copy_remove [wFixedTask, wFixedTask2] t).count u =
          ([wFixedTask, wFixedTask2] : List FixedTask).count u) ∧
      (∀ u : FixedTask,
        findAlloc (reset_model [wFixedTask, wFixedTask2] [wFixedServer]) u = none)) :=
  ⟨by decide, rfl,
   C10_claim [wFixedTask, wFixedTask2] [wFixedServer] (fixedSolver [wFixedServer]) []
     wVcgOut (by decide) rfl⟩

/-!  ## The exact fixed-speed solver's optimum under task removal  -/

theorem mem_serverChoices {ns : Nat} {o : Option Nat} :
    o ∈ serverChoices ns ↔ ∀ j, o = some j → j < ns := by
  unfold serverChoices
  cases o with
  | none => simp
  | some k => simp

theorem validChoices_cons {ns : Nat} {o : Option Nat} {σ : List (Option Nat)} :
    ValidChoices ns (o :: σ) ↔ (∀ j, o = some j → j < ns) ∧ ValidChoices ns σ := by
  unfold ValidChoices
  exact List.forall_mem_cons

theorem mem_allAssignments {ns : Nat} : ∀ {n : Nat} {σ : List (Option Nat)},
    σ ∈ allAssignments ns n ↔ σ.length = n ∧ ValidChoices ns σ := by
  intro n
  induction n with
  | zero =>
    intro σ
    constructor
    · intro h
      obtain rfl : σ = [] := by simpa [allAssignments] using h
      exact ⟨rfl, fun o ho => absurd ho (List.not_mem_nil _)⟩
    · rintro ⟨hl, -⟩
      obtain rfl : σ = [] := List.length_eq_zero.1 hl
      simp [allAssignments]
  | succ n ih =>
    intro σ
    constructor
    · intro h
      simp only [allAssignments, List.mem_flatMap, List.mem_map] at h
      obtain ⟨o, ho, σ', hσ', rfl⟩ := h
      obtain ⟨hl, hv⟩ := ih.1 hσ'
      exact ⟨by simp [hl], validChoices_cons.2 ⟨mem_serverChoices.1 ho, hv⟩⟩
    · rintro ⟨hl, hv⟩
      cases σ with
      | nil => exact absurd hl (by simp)
      | cons o σ' =>
        obtain ⟨ho, hv'⟩ := validChoices_cons.1 hv
        simp only [allAssignments, List.mem_flatMap, List.mem_map]
        exact ⟨o, mem_serverChoices.2 ho, σ', ih.2 ⟨by simpa using hl, hv'⟩, rfl⟩

theorem loadOn_cons (f : FixedTask → Nat) (j : Nat) (t : FixedTask) (o : Option Nat)
    (l : List (FixedTask × Option Nat)) :
    loadOn f j ((t, o) :: l) = (if o = some j then f t else 0) + loadOn f j l := rfl

theorem assignedValue_cons (t : FixedTask) (o : Option Nat)
    (l : List (FixedTask × Option Nat)) :
    assignedValue ((t, o) :: l) = (if o.isSome then t.value else 0) + assignedValue l := rfl

theorem foldl_max_init : ∀ (l : List Nat) (b : Nat), b ≤ l.foldl max b := by
  intro l
  induction l with
  | nil => intro b; exact le_refl b
  | cons x l ih =>
    intro b
    exact le_trans (le_max_left b x) (ih (max b x))

theorem foldl_max_mem : ∀ (l : List Nat) (b : Nat), ∀ a ∈ l, a ≤ l.foldl max b := by
  intro l
  induction l with
  | nil =>
    intro b a ha
    exact absurd ha (List.not_mem_nil _)
  | cons x l ih =>
    intro b a ha
    rcases List.mem_cons.1 ha with rfl | ha'
    · exact le_trans (le_max_right b a) (foldl_max_init l (max b a))
    · exact ih (max b x) a ha'

theorem foldl_max_cases : ∀ (l : List Nat) (b : Nat), l.foldl max b = b ∨ l.foldl max b ∈ l := by
  intro l
  induction l with
  | nil => intro b; exact Or.inl rfl
  | cons x l ih =>
    intro b
    rcases ih (max b x) with h | h
    · rcases max_choice b x with hm | hm
      · exact Or.inl (by rw [List.foldl_cons, h, hm])
      · exact Or.inr (by rw [List.foldl_cons, h, hm]; exact List.mem_cons_self x l)
    · exact Or.inr (List.mem_cons_of_mem _ h)

theorem loadOn_zip_replicate (f : FixedTask → Nat) (j : Nat) :
    ∀ tasks : List FixedTask,
      loadOn f j (tasks.zip (List.replicate tasks.length none)) = 0 := by
  intro tasks
  induction tasks with
  | nil => rfl
  | cons a l ih =>
    rw [List.length_cons, List.replicate_succ]
    show loadOn f j ((a, none) :: l.zip (List.replicate l.length none)) = 0
    rw [loadOn_cons, ih]
    simp

theorem assignedValue_zip_replicate :
    ∀ tasks : List FixedTask,
      assignedValue (tasks.zip (List.replicate tasks.length none)) = 0 := by
  intro tasks
  induction tasks with
  | nil => rfl
  | cons a l ih =>
    rw [List.length_cons, List.replicate_succ]
    show assignedValue ((a, none) :: l.zip (List.replicate l.length none)) = 0
    rw [assignedValue_cons, ih]
    simp

theorem feasible_replicate (tasks : List FixedTask) (servers : List Server) :
    FeasibleAssignment tasks servers (List.replicate tasks.length none) := by
  refine ⟨List.length_replicate _ _, ?_, ?_⟩
  · intro o ho j hj
    rw [List.eq_of_mem_replicate ho] at hj
    cases hj
  · intro j hj
    rw [loadOn_zip_replicate, loadOn_zip_replicate, loadOn_zip_replicate]
    exact ⟨Nat.zero_le _, Nat.zero_le _, Nat.zero_le _⟩

theorem le_optimalWelfare {tasks : List FixedTask} {servers : List Server}
    {σ : List (Option Nat)} (hf : FeasibleAssignment tasks servers σ) :
    assignedValue (tasks.zip σ) ≤ optimalWelfare tasks servers := by
  have hmem : σ ∈ feasibleAssignments tasks servers := by
    unfold feasibleAssignments
    exact List.mem_filter.2 ⟨mem_allAssignments.2 ⟨hf.1, hf.2.1⟩, by simpa using hf⟩
  unfold optimalWelfare
  exact foldl_max_mem _ 0 _ (List.mem_map.2 ⟨σ, hmem, rfl⟩)

theorem optimalWelfare_attained (tasks : List FixedTask) (servers : List Server) :
    ∃ σ, FeasibleAssignment tasks servers σ ∧
      assignedValue (tasks.zip σ) = optimalWelfare tasks servers := by
  unfold optimalWelfare
  rcases foldl_max_cases
      ((feasibleAssignments tasks servers).map fun σ => assignedValue (tasks.zip σ)) 0 with
    h | h
  · refine ⟨List.replicate tasks.length none, feasible_replicate _ _, ?_⟩
    rw [h, assignedValue_zip_replicate]
  · obtain ⟨σ, hσ, he⟩ := List.mem_map.1 h
    have hfe : FeasibleAssignment tasks servers σ := by
      have := (List.mem_filter.1 hσ).2
      simpa using this
    exact ⟨σ, hfe, he⟩

theorem erase_cons_ne {α : Type} [DecidableEq α] (a t : α) (l : List α) (h : a ≠ t) :
    (a :: l).erase t = a :: l.erase t :=
  List.erase_cons_tail (by simpa using h)

theorem erase_transfer_up (t : FixedTask) :
    ∀ (tasks : List FixedTask) (σ' : List (Option Nat)), t ∈ tasks →
      σ'.length = (tasks.erase t).length →
      ∃ σ : List (Option Nat), σ.length = tasks.length ∧
        (∀ ns, ValidChoices ns σ' → ValidChoices ns σ) ∧
        (∀ f j, loadOn f j (tasks.zip σ) = loadOn f j ((tasks.erase t).zip σ')) ∧
        assignedValue (tasks.zip σ) = assignedValue ((tasks.erase t).zip σ') := by
  intro tasks
  induction tasks with
  | nil =>
    intro σ' ht
    exact absurd ht (List.not_mem_nil _)
  | cons a l ih =>
    intro σ' ht hlen
    by_cases hat : a = t
    · subst hat
      rw [List.erase_cons_head] at hlen ⊢
      refine ⟨none :: σ', by simp [hlen], ?_, ?_, ?_⟩
      · intro ns hv
        exact validChoices_cons.2 ⟨by simp, hv⟩
      · intro f j
        show loadOn f j ((a, none) :: l.zip σ') = loadOn f j (l.zip σ')
        rw [loadOn_cons]
        simp
      · show assignedValue ((a, none) :: l.zip σ') = assignedValue (l.zip σ')
        rw [assignedValue_cons]
        simp
    · have herase : (a :: l).erase t = a :: l.erase t := erase_cons_ne a t l hat
      have htl : t ∈ l := by
        rcases List.mem_cons.1 ht with he | hm
        · exact absurd he.symm hat
        · exact hm
      rw [herase] at hlen
      cases σ' with
      | nil => exact absurd hlen (by simp)
      | cons o rest =>
        have hrest : rest.length = (l.erase t).length := by simpa using hlen
        obtain ⟨σl, hl1, hl2, hl3, hl4⟩ := ih rest htl hrest
        refine ⟨o :: σl, by simp [hl1], ?_, ?_, ?_⟩
        · intro ns hv
          obtain ⟨hho, hvr⟩ := validChoices_cons.1 hv
          exact validChoices_cons.2 ⟨hho, hl2 ns hvr⟩
        · intro f j
          rw [herase]
          show loadOn f j ((a, o) :: l.zip σl) = loadOn f j ((a, o) :: (l.erase t).zip rest)
          rw [loadOn_cons, loadOn_cons, hl3]
        · rw [herase]
          show assignedValue ((a, o) :: l.zip σl) =
            assignedValue ((a, o) :: (l.erase t).zip rest)
          rw [assignedValue_cons, assignedValue_cons, hl4]

theorem erase_transfer_down (t : FixedTask) :
    ∀ (tasks : List FixedTask) (σ : List (Option Nat)), t ∈ tasks →
      σ.length = tasks.length →
      ∃ σ' : List (Option Nat), σ'.length = (tasks.erase t).length ∧
        (∀ ns, ValidChoices ns σ → ValidChoices ns σ') ∧
        (∀ f j, loadOn f j ((tasks.erase t).zip σ') ≤ loadOn f j (tasks.zip σ)) ∧
        assignedValue (tasks.zip σ) ≤ assignedValue ((tasks.erase t).zip σ') + t.value := by
  intro tasks
  induction tasks with
  | nil =>
    intro σ ht
    exact absurd ht (List.not_mem_nil _)
  | cons a l ih =>
    intro σ ht hlen
    cases σ with
    | nil => exact absurd hlen (by simp)
    | cons o rest =>
      have hrest : rest.length = l.length := by simpa using hlen
      by_cases hat : a = t
      · subst hat
        rw [List.erase_cons_head]
        refine ⟨rest, hrest, ?_, ?_, ?_⟩
        · intro ns hv
          exact (validChoices_cons.1 hv).2
        · intro f j
          show loadOn f j (l.zip rest) ≤ loadOn f j ((a, o) :: l.zip rest)
          rw [loadOn_cons]
          omega
        · show assignedValue ((a, o) :: l.zip rest) ≤ assignedValue (l.zip rest) + a.value
          rw [assignedValue_cons]
          have : (if o.isSome then a.value else 0) ≤ a.value := by
            split
            · exact le_refl _
            · exact Nat.zero_le _
          omega
      · have herase : (a :: l).erase t = a :: l.erase t := erase_cons_ne a t l hat
        have htl : t ∈ l := by
          rcases List.mem_cons.1 ht with he | hm
          · exact absurd he.symm hat
          · exact hm
        obtain ⟨σl', h1, h2, h3, h4⟩ := ih rest htl hrest
        refine ⟨o :: σl', ?_, ?_, ?_, ?_⟩
        · rw [herase]
          simp [h1]
        · intro ns hv
          obtain ⟨hho, hvr⟩ := validChoices_cons.1 hv
          exact validChoices_cons.2 ⟨hho, h2 ns hvr⟩
        · intro f j
          rw [herase]
          show loadOn f j ((a, o) :: (l.erase t).zip σl') ≤
            loadOn f j ((a, o) :: l.zip rest)
          rw [loadOn_cons, loadOn_cons]
          have := h3 f j
          omega
        · rw [herase]
          show assignedValue ((a, o) :: l.zip rest) ≤
            assignedValue ((a, o) :: (l.erase t).zip σl') + t.value
          rw [assignedValue_cons, assignedValue_cons]
          have := h4
          omega

theorem optimalWelfare_erase_le {t : FixedTask} {tasks : List FixedTask}
    (servers : List Server) (ht : t ∈ tasks) :
    optimalWelfare (tasks.erase t) servers ≤ optimalWelfare tasks servers := by
  obtain ⟨σ', hf', he'⟩ := optimalWelfare_attained (tasks.erase t) servers
  obtain ⟨σ, hσlen, hσvalid, hσload, hσval⟩ := erase_transfer_up t tasks σ' ht hf'.1
  have hfeas : FeasibleAssignment tasks servers σ := by
    refine ⟨hσlen, hσvalid servers.length hf'.2.1, fun j hj => ?_⟩
    obtain ⟨c1, c2, c3⟩ := hf'.2.2 j hj
    exact ⟨by rw [hσload]; exact c1, by rw [hσload]; exact c2, by rw [hσload]; exact c3⟩
  calc optimalWelfare (tasks.erase t) servers
      = assignedValue ((tasks.erase t).zip σ') := he'.symm
    _ = assignedValue (tasks.zip σ) := hσval.symm
    _ ≤ optimalWelfare tasks servers := le_optimalWelfare hfeas

theorem optimalWelfare_le_erase_add {t : FixedTask} {tasks : List FixedTask}
    (servers : List Server) (ht : t ∈ tasks) :
    optimalWelfare tasks servers ≤ optimalWelfare (tasks.erase t) servers + t.value := by
  obtain ⟨σ, hf, he⟩ := optimalWelfare_attained tasks servers
  obtain ⟨σ', h1, h2, h3, h4⟩ := erase_transfer_down t tasks σ ht hf.1
  have hfeas : FeasibleAssignment (tasks.erase t) servers σ' := by
    refine ⟨h1, h2 servers.length hf.2.1, fun j hj => ?_⟩
    obtain ⟨c1, c2, c3⟩ := hf.2.2 j hj
    exact ⟨le_trans (h3 _ j) c1, le_trans (h3 _ j) c2, le_trans (h3 _ j) c3⟩
  calc optimalWelfare tasks servers = assignedValue (tasks.zip σ) := he.symm
    _ ≤ assignedValue ((tasks.erase t).zip σ') + t.value := h4
    _ ≤ optimalWelfare (tasks.erase t) servers + t.value :=
        Nat.add_le_add_right (le_optimalWelfare hfeas) _

/-- C2: with the exact fixed-speed solver, every priced task's VCG price is
individually rational — `0 ≤ price(t) ≤ value(t)` — and the removal re-solve's
optimum is monotone: `V(−t) ≤ V*` for every task of the instance. -/
theorem C2_claim (tasks : List FixedTask) (servers : List Server)
    (st0 : AllocState FixedTask) (out : List (FixedTask × Int) × AllocState FixedTask)
    (h : vcg_solver tasks servers (fixedSolver servers) st0 = some out) :
    (∀ t p, (t, p) ∈ out.1 → 0 ≤ p ∧ p ≤ (t.value : Int)) ∧
    (∀ t ∈ tasks, optimalWelfare (list_copy_remove tasks t) servers ≤
      optimalWelfare tasks servers) := by
  obtain ⟨opt, prices, ho, hp, h1, h2⟩ := vcg_solver_eq h
  have hosw : opt.social_welfare = optimalWelfare tasks servers := by
    unfold fixedSolver at ho
    injection ho with ho'
    rw [← ho']
  constructor
  · intro t p hm
    rw [h1] at hm
    obtain ⟨htl, pr, hr, hpe⟩ := vcgPrices_mem tasks servers (fixedSolver servers)
      opt.social_welfare _ prices hp t p hm
    have htm : t ∈ tasks := allocatedTasks_sub _ htl
    have hprsw : pr.social_welfare = optimalWelfare (tasks.erase t) servers := by
      rw [vcgResolve_eq] at hr
      unfold fixedSolver at hr
      injection hr with hr'
      rw [← hr']
      rfl
    have hmono : optimalWelfare (tasks.erase t) servers ≤ optimalWelfare tasks servers :=
      optimalWelfare_erase_le servers htm
    have hub : optimalWelfare tasks servers ≤
        optimalWelfare (tasks.erase t) servers + t.value :=
      optimalWelfare_le_erase_add servers htm
    rw [hpe, hosw, hprsw]
    omega
  · intro t htm
    have : optimalWelfare (tasks.erase t) servers ≤ optimalWelfare tasks servers :=
      optimalWelfare_erase_le servers htm
    exact this

/-- Witness for C2: individual rationality and monotonicity evaluated on the
concrete two-task fixed-speed instance, where the accepted task of value 10 is
priced 6. -/
theorem C2_claim_witness :
    vcg_solver [wFixedTask, wFixedTask2] [wFixedServer] (fixedSolver [wFixedServer]) [] =
      some wVcgOut ∧
    ((∀ t p, (t, p) ∈ wVcgOut.1 → 0 ≤ p ∧ p ≤ (t.value : Int)) ∧
     (∀ t ∈ [wFixedTask, wFixedTask2],
       optimalWelfare (list_copy_remove [wFixedTask, wFixedTask2] t) [wFixedServer] ≤
         optimalWelfare [wFixedTask, wFixedTask2] [wFixedServer])) :=
  ⟨rfl, C2_claim [wFixedTask, wFixedTask2] [wFixedServer] [] wVcgOut rfl⟩

end Elastic
